import Mathlib

/-!
Verification of the rosetta-ruchy sorting-algorithm suite (C sources)
against its natural-language specification.

The C arrays of `int` are embedded as `List Int`; an in-place function
becomes a function from the array value to the array value, with element
reads `getE` (`arr[i]`) and swaps `listSwap` mirroring the source's
pointer-free index operations.  Loop counters that the C code stores in
`int` variables and drives below zero are kept as `Int`; counters that
stay non-negative are `Nat`.
-/

/-- `arr[i]` for an embedded `int` array (out-of-range reads default to 0;
every verified access is in range). -/
def getE (l : List Int) (i : Nat) : Int := l.getD i 0

/-- The C idiom `temp = arr[i]; arr[i] = arr[j]; arr[j] = temp`. -/
def listSwap (l : List Int) (i j : Nat) : List Int :=
  (l.set i (getE l j)).set j (getE l i)

theorem length_listSwap (l : List Int) (i j : Nat) :
    (listSwap l i j).length = l.length := by
  simp [listSwap]

theorem getE_set_self (l : List Int) (i : Nat) (x : Int) (h : i < l.length) :
    getE (l.set i x) i = x := by
  simp [getE, List.getD, List.getElem?_set_self', h]

theorem getE_set_ne (l : List Int) (i k : Nat) (x : Int) (h : k ≠ i) :
    getE (l.set i x) k = getE l k := by
  simp [getE, List.getD, List.getElem?_set_ne (by omega : i ≠ k)]

theorem getE_listSwap_left (l : List Int) (i j : Nat)
    (hi : i < l.length) (hj : j < l.length) :
    getE (listSwap l i j) i = getE l j := by
  rcases eq_or_ne i j with rfl | hne
  · rw [listSwap, getE_set_self _ _ _ (by simpa using hi)]
  · rw [listSwap, getE_set_ne _ _ _ _ hne, getE_set_self _ _ _ hi]

theorem getE_listSwap_right (l : List Int) (i j : Nat)
    (hj : j < l.length) :
    getE (listSwap l i j) j = getE l i := by
  rw [listSwap, getE_set_self _ _ _ (by simpa using hj)]

theorem getE_listSwap_other (l : List Int) (i j k : Nat)
    (hki : k ≠ i) (hkj : k ≠ j) :
    getE (listSwap l i j) k = getE l k := by
  rw [listSwap, getE_set_ne _ _ _ _ hkj, getE_set_ne _ _ _ _ hki]

theorem cons_perm_set (t : List Int) (k : Nat) (b : Int) (hk : k < t.length) :
    (b :: t).Perm (getE t k :: t.set k b) := by
  induction t generalizing k b with
  | nil => simp at hk
  | cons x t' ih =>
    cases k with
    | zero => simpa [getE] using List.Perm.swap x b t'
    | succ k =>
      have hk' : k < t'.length := by simpa using hk
      have h1 : (b :: x :: t').Perm (x :: b :: t') := List.Perm.swap x b t'
      have h2 : (x :: b :: t').Perm (x :: (getE t' k :: t'.set k b)) :=
        (ih k b hk').cons x
      have h3 : (x :: getE t' k :: t'.set k b).Perm
          (getE t' k :: x :: t'.set k b) := List.Perm.swap _ _ _
      have h4 : getE t' k :: x :: t'.set k b
          = getE (x :: t') (k + 1) :: (x :: t').set (k + 1) b := by simp [getE]
      rw [h4] at h3
      exact (h1.trans h2).trans h3

theorem listSwap_perm (l : List Int) (i j : Nat)
    (hi : i < l.length) (hj : j < l.length) :
    (listSwap l i j).Perm l := by
  induction l generalizing i j with
  | nil => simp at hi
  | cons a t ih =>
    cases i with
    | zero =>
      cases j with
      | zero => simp [listSwap, getE]
      | succ j =>
        have hj' : j < t.length := by simpa using hj
        have : listSwap (a :: t) 0 (j + 1) = getE t j :: t.set j a := by
          simp [listSwap, getE_set_self, getE]
        rw [this]
        exact ((cons_perm_set t j a hj').symm)
    | succ i =>
      cases j with
      | zero =>
        have hi' : i < t.length := by simpa using hi
        have : listSwap (a :: t) (i + 1) 0 = getE t i :: t.set i a := by
          simp [listSwap, getE]
        rw [this]
        exact ((cons_perm_set t i a hi').symm)
      | succ j =>
        have : listSwap (a :: t) (i + 1) (j + 1) = a :: listSwap t i j := by
          simp [listSwap, getE]
        rw [this]
        exact (ih i j (by simpa using hi) (by simpa using hj)).cons a

/-!
## In-place quicksort (`quicksort.c`, Lomuto partition)
-/

/-- The scan loop of `partition` (quicksort.c:53-61): `j` runs from `low`
towards `high`; whenever `arr[j] <= pivot`, `arr[i]` and `arr[j]` are
swapped and `i` advances.  Returns the array and the final `i`. -/
def lomutoLoop (arr : List Int) (pivot : Int) (i j high : Nat) :
    List Int × Nat :=
  if j < high then
    if getE arr j ≤ pivot then
      lomutoLoop (listSwap arr i j) pivot (i + 1) (j + 1) high
    else
      lomutoLoop arr pivot i (j + 1) high
  else
    (arr, i)
termination_by high - j

/-- `partition` (quicksort.c:49-69): Lomuto partition of `arr[low..high]`
with pivot `arr[high]`; after the scan the pivot is swapped to position
`i`, which is returned. -/
def partition (arr : List Int) (low high : Nat) : List Int × Nat :=
  let pivot := getE arr high
  let r := lomutoLoop arr pivot low low high
  (listSwap r.1 r.2 high, r.2)

theorem lomutoLoop_snd_le (arr : List Int) (pivot : Int) (i j high : Nat)
    (hij : i ≤ j) :
    i ≤ (lomutoLoop arr pivot i j high).2 ∧
      (lomutoLoop arr pivot i j high).2 ≤ max i high := by
  induction arr, pivot, i, j, high using lomutoLoop.induct with
  | case1 arr pivot i j high hjh hle ih =>
    rw [lomutoLoop, if_pos hjh, if_pos hle]
    obtain ⟨h1, h2⟩ := ih (by omega)
    omega
  | case2 arr pivot i j high hjh hle ih =>
    rw [lomutoLoop, if_pos hjh, if_neg hle]
    obtain ⟨h1, h2⟩ := ih (by omega)
    omega
  | case3 arr pivot i j high hjh =>
    rw [lomutoLoop, if_neg hjh]
    simp

theorem partition_snd_bounds (arr : List Int) (low high : Nat)
    (h : low ≤ high) :
    low ≤ (partition arr low high).2 ∧ (partition arr low high).2 ≤ high := by
  have := lomutoLoop_snd_le arr (getE arr high) low low high le_rfl
  simp only [partition]
  omega

/-- `quicksort_range` (quicksort.c:36-47): partition, then recurse on the
two sides of the returned pivot index (each side guarded as in the source). -/
def quicksort_range (arr : List Int) (low high : Nat) : List Int :=
  if h : low < high then
    let pr := partition arr low high
    let a1 := if 0 < pr.2 then quicksort_range pr.1 low (pr.2 - 1) else pr.1
    if pr.2 + 1 ≤ high then quicksort_range a1 (pr.2 + 1) high else a1
  else
    arr
termination_by high + 1 - low
decreasing_by
  · have := partition_snd_bounds arr low high (by omega)
    omega
  · have := partition_snd_bounds arr low high (by omega)
    omega

/-- `quicksort_inplace` (quicksort.c:30-34). -/
def quicksort_inplace (arr : List Int) : List Int :=
  if 1 < arr.length then quicksort_range arr 0 (arr.length - 1) else arr

theorem lomutoLoop_spec :
    ∀ (arr : List Int) (pivot : Int) (i j high : Nat), ∀ low : Nat,
    low ≤ i → i ≤ j → j ≤ high → high ≤ arr.length →
    (∀ k, low ≤ k → k < i → getE arr k ≤ pivot) →
    (∀ k, i ≤ k → k < j → pivot < getE arr k) →
    (lomutoLoop arr pivot i j high).1.length = arr.length ∧
    (lomutoLoop arr pivot i j high).1.Perm arr ∧
    (∀ k, k < i ∨ high ≤ k →
      getE (lomutoLoop arr pivot i j high).1 k = getE arr k) ∧
    (∀ k, low ≤ k → k < (lomutoLoop arr pivot i j high).2 →
      getE (lomutoLoop arr pivot i j high).1 k ≤ pivot) ∧
    (∀ k, (lomutoLoop arr pivot i j high).2 ≤ k → k < high →
      pivot < getE (lomutoLoop arr pivot i j high).1 k) := by
  intro arr pivot i j high
  induction arr, pivot, i, j, high using lomutoLoop.induct with
  | case1 arr pivot i j high hjh hle ih =>
    intro low hli hij hjh' hhl hbelow habove
    rw [lomutoLoop, if_pos hjh, if_pos hle]
    have hilen : i < arr.length := by omega
    have hjlen : j < arr.length := by omega
    have hbelow' : ∀ k, low ≤ k → k < i + 1 → getE (listSwap arr i j) k ≤ pivot := by
      intro k hk1 hk2
      rcases eq_or_ne k i with rfl | hne
      · rw [getE_listSwap_left _ _ _ hilen hjlen]; exact hle
      · rw [getE_listSwap_other _ _ _ _ hne (by omega)]
        exact hbelow k hk1 (by omega)
    have habove' : ∀ k, i + 1 ≤ k → k < j + 1 → pivot < getE (listSwap arr i j) k := by
      intro k hk1 hk2
      rcases eq_or_ne k j with rfl | hne
      · rw [getE_listSwap_right _ _ _ hjlen]
        exact habove i le_rfl (by omega)
      · rw [getE_listSwap_other _ _ _ _ (by omega) hne]
        exact habove k (by omega) (by omega)
    obtain ⟨l1, l2, l3, l4, l5⟩ :=
      ih low (by omega) (by omega) (by omega)
        (by rw [length_listSwap]; exact hhl) hbelow' habove'
    refine ⟨l1.trans (length_listSwap _ _ _), l2.trans (listSwap_perm _ _ _ hilen hjlen),
      ?_, l4, l5⟩
    intro k hk
    rw [l3 k (by omega), getE_listSwap_other _ _ _ _ (by omega) (by omega)]
  | case2 arr pivot i j high hjh hle ih =>
    intro low hli hij hjh' hhl hbelow habove
    rw [lomutoLoop, if_pos hjh, if_neg hle]
    refine ih low hli (by omega) (by omega) hhl hbelow ?_
    intro k hk1 hk2
    rcases eq_or_ne k j with rfl | hne
    · exact lt_of_not_le hle
    · exact habove k hk1 (by omega)
  | case3 arr pivot i j high hjh =>
    intro low hli hij hjh' hhl hbelow habove
    rw [lomutoLoop, if_neg hjh]
    have hje : j = high := by omega
    exact ⟨rfl, List.Perm.refl _, fun k _ => rfl, hbelow,
      fun k hk1 hk2 => habove k hk1 (by omega)⟩

theorem partition_spec (arr : List Int) (low high : Nat) (out : List Int)
    (p : Nat) (heq : partition arr low high = (out, p))
    (hlh : low ≤ high) (hh : high < arr.length) :
    out.length = arr.length ∧ out.Perm arr ∧ low ≤ p ∧ p ≤ high ∧
    (∀ k, k < low ∨ high < k → getE out k = getE arr k) ∧
    getE out p = getE arr high ∧
    (∀ k, low ≤ k → k < p → getE out k ≤ getE arr high) ∧
    (∀ k, p < k → k ≤ high → getE arr high ≤ getE out k) := by
  obtain ⟨l1, l2, l3, l4, l5⟩ :=
    lomutoLoop_spec arr (getE arr high) low low high low le_rfl le_rfl hlh
      (by omega) (by intro k h1 h2; omega) (by intro k h1 h2; omega)
  obtain ⟨b1, b2⟩ := lomutoLoop_snd_le arr (getE arr high) low low high le_rfl
  set a := (lomutoLoop arr (getE arr high) low low high).1 with ha
  set idx := (lomutoLoop arr (getE arr high) low low high).2 with hidx
  have hible : idx ≤ high := by omega
  have hilen : idx < a.length := by omega
  have hhlen : high < a.length := by omega
  have hpair : (out, p) = (listSwap a idx high, idx) := by
    rw [← heq]; rfl
  have hout : out = listSwap a idx high := congrArg Prod.fst hpair
  have hp : p = idx := congrArg Prod.snd hpair
  subst hout hp
  refine ⟨by rw [length_listSwap]; exact l1,
    (listSwap_perm _ _ _ hilen hhlen).trans l2, b1, hible, ?_, ?_, ?_, ?_⟩
  · intro k hk
    rw [getE_listSwap_other _ _ _ _ (by omega) (by omega)]
    exact l3 k (by omega)
  · rw [getE_listSwap_left _ _ _ hilen hhlen]
    exact l3 high (Or.inr le_rfl)
  · intro k hk1 hk2
    rw [getE_listSwap_other _ _ _ _ (by omega) (by omega)]
    exact l4 k hk1 hk2
  · intro k hk1 hk2
    rcases eq_or_ne k high with rfl | hne
    · rw [getE_listSwap_right _ _ _ hhlen]
      exact le_of_lt (l5 idx le_rfl (by omega))
    · rw [getE_listSwap_other _ _ _ _ (by omega) hne]
      exact le_of_lt (l5 k (by omega) (by omega))

theorem getE_eq_getElem (l : List Int) (k : Nat) (h : k < l.length) :
    getE l k = l[k] := by
  simp [getE, List.getD, List.getElem?_eq_getElem h]

theorem getE_mem (l : List Int) (k : Nat) (h : k < l.length) :
    getE l k ∈ l := by
  rw [getE_eq_getElem l k h]
  exact List.getElem_mem h

theorem getE_drop (l : List Int) (a m : Nat) :
    getE (l.drop a) m = getE l (a + m) := by
  simp [getE, List.getD, List.getElem?_drop]

theorem getE_take (l : List Int) (n m : Nat) (h : m < n) :
    getE (l.take n) m = getE l m := by
  simp [getE, List.getD, List.getElem?_take, h]

theorem getElem?_eq_of_getE_eq (arr out : List Int) (k : Nat)
    (hlen : out.length = arr.length) (h : getE out k = getE arr k) :
    out[k]? = arr[k]? := by
  by_cases hk : k < out.length
  · rw [List.getElem?_eq_getElem hk, List.getElem?_eq_getElem (by omega)]
    rw [getE_eq_getElem _ _ hk, getE_eq_getElem _ _ (by omega)] at h
    exact congrArg some h
  · rw [List.getElem?_eq_none (by omega), List.getElem?_eq_none (by omega)]

theorem seg_decomp (l : List Int) (lo hi : Nat) (h : lo ≤ hi + 1) :
    l = l.take lo ++ ((l.drop lo).take (hi + 1 - lo)) ++ l.drop (hi + 1) := by
  have h1 : (l.drop lo).drop (hi + 1 - lo) = l.drop (hi + 1) := by
    rw [List.drop_drop]
    congr 1
    omega
  calc l = l.take lo ++ l.drop lo := (List.take_append_drop lo l).symm
    _ = l.take lo ++ (((l.drop lo).take (hi + 1 - lo)) ++
          ((l.drop lo).drop (hi + 1 - lo))) := by
        conv_rhs => rw [List.take_append_drop]
    _ = l.take lo ++ ((l.drop lo).take (hi + 1 - lo)) ++ l.drop (hi + 1) := by
        rw [h1, List.append_assoc]

theorem seg_perm (arr out : List Int) (lo hi : Nat)
    (hlen : out.length = arr.length) (hperm : out.Perm arr)
    (hframe : ∀ k, k < lo ∨ hi < k → getE out k = getE arr k) :
    ((out.drop lo).take (hi + 1 - lo)).Perm ((arr.drop lo).take (hi + 1 - lo)) := by
  by_cases hlohi : lo ≤ hi + 1
  · have htake : out.take lo = arr.take lo := by
      apply List.ext_getElem?
      intro k
      rw [List.getElem?_take, List.getElem?_take]
      by_cases hk : k < lo
      · simp only [if_pos hk]
        exact getElem?_eq_of_getE_eq arr out k hlen (hframe k (Or.inl hk))
      · simp [if_neg hk]
    have hdrop : out.drop (hi + 1) = arr.drop (hi + 1) := by
      apply List.ext_getElem?
      intro k
      rw [List.getElem?_drop, List.getElem?_drop]
      exact getElem?_eq_of_getE_eq arr out _ hlen (hframe _ (Or.inr (by omega)))
    rw [List.perm_iff_count]
    intro x
    have co : out.count x = (out.take lo).count x +
        ((out.drop lo).take (hi + 1 - lo)).count x + (out.drop (hi + 1)).count x := by
      conv_lhs => rw [seg_decomp out lo hi hlohi]
      simp [List.count_append]
      omega
    have ca : arr.count x = (arr.take lo).count x +
        ((arr.drop lo).take (hi + 1 - lo)).count x + (arr.drop (hi + 1)).count x := by
      conv_lhs => rw [seg_decomp arr lo hi hlohi]
      simp [List.count_append]
      omega
    have hc : out.count x = arr.count x := hperm.count_eq x
    rw [htake, hdrop] at co
    omega
  · have h0 : hi + 1 - lo = 0 := by omega
    simp [h0]

theorem seg_value_bound (arr out : List Int) (lo hi : Nat) (P : Int → Prop)
    (hlen : out.length = arr.length) (hperm : out.Perm arr)
    (hframe : ∀ k, k < lo ∨ hi < k → getE out k = getE arr k)
    (hhi : hi < arr.length)
    (hbase : ∀ k, lo ≤ k → k ≤ hi → P (getE arr k)) :
    ∀ k, lo ≤ k → k ≤ hi → P (getE out k) := by
  intro k hk1 hk2
  have hperm2 := seg_perm arr out lo hi hlen hperm hframe
  have hklen : k < out.length := by omega
  have hmem : getE out k ∈ (out.drop lo).take (hi + 1 - lo) := by
    have hlen2 : k - lo < ((out.drop lo).take (hi + 1 - lo)).length := by
      simp [List.length_take, List.length_drop]
      omega
    have : getE ((out.drop lo).take (hi + 1 - lo)) (k - lo) = getE out k := by
      rw [getE_take _ _ _ (by omega), getE_drop]
      congr 1
      omega
    rw [← this]
    exact getE_mem _ _ hlen2
  have hmem2 : getE out k ∈ (arr.drop lo).take (hi + 1 - lo) :=
    hperm2.mem_iff.mp hmem
  obtain ⟨m, hm, hval⟩ := List.mem_iff_getElem.mp hmem2
  have hmlen : m < hi + 1 - lo := by
    have := hm
    simp [List.length_take, List.length_drop] at this
    omega
  have : getE arr (lo + m) = getE out k := by
    rw [← hval, ← getE_eq_getElem _ _ hm, getE_take _ _ _ hmlen, getE_drop]
  rw [← this]
  exact hbase (lo + m) (by omega) (by omega)

theorem quicksort_range_unfold (arr : List Int) (low high : Nat)
    (h : low < high) (out0 : List Int) (p : Nat)
    (heq : partition arr low high = (out0, p)) :
    quicksort_range arr low high =
      (if p + 1 ≤ high then
        quicksort_range (if 0 < p then quicksort_range out0 low (p - 1) else out0)
          (p + 1) high
      else (if 0 < p then quicksort_range out0 low (p - 1) else out0)) := by
  rw [quicksort_range, dif_pos h, heq]

theorem quicksort_range_correct :
    ∀ (n : Nat) (arr : List Int) (low high : Nat), high + 1 - low ≤ n →
    high < arr.length →
    (quicksort_range arr low high).length = arr.length ∧
    (quicksort_range arr low high).Perm arr ∧
    (∀ k, k < low ∨ high < k →
      getE (quicksort_range arr low high) k = getE arr k) ∧
    (∀ a b, low ≤ a → a ≤ b → b ≤ high →
      getE (quicksort_range arr low high) a ≤ getE (quicksort_range arr low high) b) := by
  intro n
  induction n with
  | zero =>
    intro arr low high hm hlen
    have h : ¬ low < high := by omega
    rw [quicksort_range, dif_neg h]
    exact ⟨rfl, .refl _, fun k _ => rfl, fun a b h1 h2 h3 => by exfalso; omega⟩
  | succ n ih =>
    intro arr low high hm hlen
    by_cases h : low < high
    case neg =>
      rw [quicksort_range, dif_neg h]
      refine ⟨rfl, .refl _, fun k _ => rfl, fun a b h1 h2 h3 => ?_⟩
      have : a = b := by omega
      rw [this]
    case pos =>
    obtain ⟨out0, p, heq⟩ : ∃ o q, partition arr low high = (o, q) := ⟨_, _, rfl⟩
    obtain ⟨plen, pperm, hlp, hph, pframe, ppiv, pbelow, pabove⟩ :=
      partition_spec arr low high out0 p heq (le_of_lt h) hlen
    rw [quicksort_range_unfold arr low high h out0 p heq]
    set pV := getE arr high with hpV
    set a1 := if 0 < p then quicksort_range out0 low (p - 1) else out0 with ha1
    have hA : a1.length = arr.length ∧ a1.Perm arr ∧
        (∀ k, k < low ∨ high < k → getE a1 k = getE arr k) ∧
        (∀ k, p ≤ k → getE a1 k = getE out0 k) ∧
        (∀ a b, low ≤ a → a ≤ b → b + 1 ≤ p → getE a1 a ≤ getE a1 b) ∧
        (∀ k, low ≤ k → k < p → getE a1 k ≤ pV) := by
      by_cases h0 : 0 < p
      · rw [ha1, if_pos h0]
        obtain ⟨l1, l2, l3, l4⟩ := ih out0 low (p - 1) (by omega) (by omega)
        refine ⟨l1.trans plen, l2.trans pperm, ?_, ?_, ?_, ?_⟩
        · intro k hk
          rw [l3 k (by omega)]
          exact pframe k hk
        · intro k hk
          exact l3 k (by omega)
        · intro a b hab1 hab2 hab3
          exact l4 a b hab1 hab2 (by omega)
        · intro k h1 h2
          exact seg_value_bound out0 _ low (p - 1) (fun x => x ≤ pV)
            l1 l2 l3 (by omega) (fun k hk1 hk2 => pbelow k hk1 (by omega))
            k h1 (by omega)
      · rw [ha1, if_neg h0]
        exact ⟨plen, pperm, pframe, fun k _ => rfl,
          fun a b h1 h2 h3 => by exfalso; omega,
          fun k h1 h2 => by exfalso; omega⟩
    obtain ⟨A_len, A_perm, A_frame, A_keep, A_sortl, A_below⟩ := hA
    have A_piv : getE a1 p = pV := by rw [A_keep p le_rfl]; exact ppiv
    have A_above : ∀ k, p < k → k ≤ high → pV ≤ getE a1 k := by
      intro k h1 h2
      rw [A_keep k (by omega)]
      exact pabove k h1 h2
    set outF := if p + 1 ≤ high then quicksort_range a1 (p + 1) high else a1
      with houtF
    have hR : outF.length = a1.length ∧ outF.Perm a1 ∧
        (∀ k, k < p + 1 ∨ high < k → getE outF k = getE a1 k) ∧
        (∀ a b, p + 1 ≤ a → a ≤ b → b ≤ high → getE outF a ≤ getE outF b) ∧
        (∀ k, p < k → k ≤ high → pV ≤ getE outF k) := by
      by_cases h2 : p + 1 ≤ high
      · rw [houtF, if_pos h2]
        obtain ⟨r1, r2, r3, r4⟩ := ih a1 (p + 1) high (by omega) (by omega)
        refine ⟨r1, r2, r3, r4, ?_⟩
        exact seg_value_bound a1 _ (p + 1) high (fun x => pV ≤ x)
          r1 r2 r3 (by omega) (fun k hk1 hk2 => A_above k (by omega) hk2)
      · rw [houtF, if_neg h2]
        exact ⟨rfl, .refl _, fun k _ => rfl,
          fun a b h1 h2' h3 => by exfalso; omega,
          fun k h1 h2' => A_above k h1 h2'⟩
    obtain ⟨R_len, R_perm, R_frame, R_sortr, R_above⟩ := hR
    have R_keep : ∀ k, k ≤ p → getE outF k = getE a1 k := by
      intro k hk
      exact R_frame k (Or.inl (by omega))
    refine ⟨R_len.trans A_len, R_perm.trans A_perm, ?_, ?_⟩
    · intro k hk
      have : getE outF k = getE a1 k := by
        rcases hk with hk | hk
        · exact R_frame k (Or.inl (by omega))
        · exact R_frame k (Or.inr hk)
      rw [this]
      exact A_frame k hk
    · intro a b hab1 hab2 hab3
      by_cases hbp : b < p
      · rw [R_keep a (by omega), R_keep b (by omega)]
        exact A_sortl a b hab1 hab2 (by omega)
      · by_cases hap : p < a
        · exact R_sortr a b (by omega) hab2 hab3
        · have hleft : getE outF a ≤ pV := by
            rcases lt_or_eq_of_le (by omega : a ≤ p) with hap' | hap'
            · rw [R_keep a (by omega)]
              exact A_below a hab1 hap'
            · rw [hap', R_keep p le_rfl, A_piv]
          have hright : pV ≤ getE outF b := by
            rcases lt_or_eq_of_le (by omega : p ≤ b) with hbp' | hbp'
            · exact R_above b hbp' hab3
            · rw [← hbp', R_keep p le_rfl, A_piv]
          exact hleft.trans hright

/-!
## Three-way (Dutch-flag) quicksort (`quicksort.c:159-196`)
-/

/-- One iteration of the `while (i <= gt)` body of
`three_way_partition_sort` (quicksort.c:173-190): compare `arr[i]` with the
pivot and swap/advance the `lt`, `i`, `gt` cursors.  Returns
`(arr, lt, i, gt)`. -/
def dutchStep (arr : List Int) (pivot : Int) (lt i gt : Int) :
    List Int × Int × Int × Int :=
  if getE arr i.toNat < pivot then
    (listSwap arr i.toNat lt.toNat, lt + 1, i + 1, gt)
  else if pivot < getE arr i.toNat then
    (listSwap arr i.toNat gt.toNat, lt, i, gt - 1)
  else
    (arr, lt, i + 1, gt)

/-- The `while (i <= gt)` loop of `three_way_partition_sort`; returns
`(arr, lt, gt)`. -/
def dutchLoop (arr : List Int) (pivot : Int) (lt i gt : Int) :
    List Int × Int × Int :=
  if h : i ≤ gt then
    dutchLoop (dutchStep arr pivot lt i gt).1 pivot
      (dutchStep arr pivot lt i gt).2.1
      (dutchStep arr pivot lt i gt).2.2.1
      (dutchStep arr pivot lt i gt).2.2.2
  else
    (arr, lt, gt)
termination_by (gt + 1 - i).toNat
decreasing_by
  simp only [dutchStep]
  split
  · simp only
    omega
  · split
    · simp only
      omega
    · simp only
      omega

theorem dutchLoop_bounds :
    ∀ (arr : List Int) (pivot : Int) (lt i gt : Int),
    lt < i → i ≤ gt + 1 →
    lt ≤ (dutchLoop arr pivot lt i gt).2.1 ∧
    (dutchLoop arr pivot lt i gt).2.1 ≤ (dutchLoop arr pivot lt i gt).2.2 ∧
    (dutchLoop arr pivot lt i gt).2.2 ≤ gt := by
  intro arr pivot lt i gt
  induction arr, pivot, lt, i, gt using dutchLoop.induct with
  | case1 arr pivot lt i gt h ih =>
    intro h1 h2
    rw [dutchLoop, dif_pos h]
    simp only [dutchStep] at ih ⊢
    by_cases c1 : getE arr i.toNat < pivot
    · simp only [if_pos c1] at ih ⊢
      obtain ⟨b1, b2, b3⟩ := ih (by omega) (by omega)
      exact ⟨by omega, b2, b3⟩
    · by_cases c2 : pivot < getE arr i.toNat
      · simp only [if_neg c1, if_pos c2] at ih ⊢
        obtain ⟨b1, b2, b3⟩ := ih (by omega) (by omega)
        exact ⟨b1, b2, by omega⟩
      · simp only [if_neg c1, if_neg c2] at ih ⊢
        obtain ⟨b1, b2, b3⟩ := ih (by omega) (by omega)
        exact ⟨b1, b2, b3⟩
  | case2 arr pivot lt i gt h =>
    intro h1 h2
    rw [dutchLoop, dif_neg h]
    exact ⟨le_refl _, by simp; omega, by simp⟩

/-- `three_way_partition_sort` (quicksort.c:165-196): Dutch-flag partition
around `pivot = arr[low]`, then recurse on the strictly-less and
strictly-greater regions (the left call guarded by `lt > 0` as in the
source). -/
def three_way_partition_sort (arr : List Int) (low high : Int) : List Int :=
  if h : low < high then
    let pivot := getE arr low.toNat
    let r := dutchLoop arr pivot low (low + 1) high
    let a1 := if 0 < r.2.1 then three_way_partition_sort r.1 low (r.2.1 - 1)
      else r.1
    three_way_partition_sort a1 (r.2.2 + 1) high
  else
    arr
termination_by (high + 1 - low).toNat
decreasing_by
  · have := dutchLoop_bounds arr (getE arr low.toNat) low (low + 1) high
      (by omega) (by omega)
    omega
  · have := dutchLoop_bounds arr (getE arr low.toNat) low (low + 1) high
      (by omega) (by omega)
    omega

/-- `quicksort_three_way` (quicksort.c:160-163). -/
def quicksort_three_way (arr : List Int) : List Int :=
  if arr.length ≤ 1 then arr
  else three_way_partition_sort arr 0 ((arr.length : Int) - 1)

theorem dutchLoop_spec :
    ∀ (arr : List Int) (pivot : Int) (lt i gt : Int), ∀ (low high : Int),
    0 ≤ low → low ≤ lt → lt < i → i ≤ gt + 1 → gt ≤ high →
    high < (arr.length : Int) →
    (∀ k : Nat, low ≤ (k : Int) → (k : Int) < lt → getE arr k < pivot) →
    (∀ k : Nat, lt ≤ (k : Int) → (k : Int) < i → getE arr k = pivot) →
    (∀ k : Nat, gt < (k : Int) → (k : Int) ≤ high → pivot < getE arr k) →
    (dutchLoop arr pivot lt i gt).1.length = arr.length ∧
    (dutchLoop arr pivot lt i gt).1.Perm arr ∧
    (∀ k : Nat, (k : Int) < low ∨ high < (k : Int) →
      getE (dutchLoop arr pivot lt i gt).1 k = getE arr k) ∧
    (∀ k : Nat, low ≤ (k : Int) → (k : Int) < (dutchLoop arr pivot lt i gt).2.1 →
      getE (dutchLoop arr pivot lt i gt).1 k < pivot) ∧
    (∀ k : Nat, (dutchLoop arr pivot lt i gt).2.1 ≤ (k : Int) →
      (k : Int) ≤ (dutchLoop arr pivot lt i gt).2.2 →
      getE (dutchLoop arr pivot lt i gt).1 k = pivot) ∧
    (∀ k : Nat, (dutchLoop arr pivot lt i gt).2.2 < (k : Int) →
      (k : Int) ≤ high → pivot < getE (dutchLoop arr pivot lt i gt).1 k) := by
  intro arr pivot lt i gt
  induction arr, pivot, lt, i, gt using dutchLoop.induct with
  | case1 arr pivot lt i gt h ih =>
    intro low high h0 h1 h2 h3 h4 h5 hbelow hequal habove
    rw [dutchLoop, dif_pos h]
    have hiN : i.toNat < arr.length := by omega
    have hltN : lt.toNat < arr.length := by omega
    have hgtN : gt.toNat < arr.length := by omega
    simp only [dutchStep] at ih ⊢
    by_cases c1 : getE arr i.toNat < pivot
    · simp only [if_pos c1] at ih ⊢
      have hbelow' : ∀ k : Nat, low ≤ (k : Int) → (k : Int) < lt + 1 →
          getE (listSwap arr i.toNat lt.toNat) k < pivot := by
        intro k hk1 hk2
        by_cases hkl : (k : Int) < lt
        · rw [getE_listSwap_other _ _ _ _ (by omega) (by omega)]
          exact hbelow k hk1 hkl
        · have : k = lt.toNat := by omega
          rw [this, getE_listSwap_right _ _ _ hltN]
          exact c1
      have hequal' : ∀ k : Nat, lt + 1 ≤ (k : Int) → (k : Int) < i + 1 →
          getE (listSwap arr i.toNat lt.toNat) k = pivot := by
        intro k hk1 hk2
        by_cases hki : (k : Int) < i
        · rw [getE_listSwap_other _ _ _ _ (by omega) (by omega)]
          exact hequal k (by omega) hki
        · have : k = i.toNat := by omega
          rw [this, getE_listSwap_left _ _ _ hiN hltN]
          exact hequal lt.toNat (by omega) (by omega)
      have habove' : ∀ k : Nat, gt < (k : Int) → (k : Int) ≤ high →
          pivot < getE (listSwap arr i.toNat lt.toNat) k := by
        intro k hk1 hk2
        rw [getE_listSwap_other _ _ _ _ (by omega) (by omega)]
        exact habove k hk1 hk2
      obtain ⟨r1, r2, r3, r4, r5, r6⟩ := ih low high h0 (by omega) (by omega)
        (by omega) h4 (by rw [length_listSwap]; exact h5) hbelow' hequal' habove'
      refine ⟨r1.trans (length_listSwap _ _ _),
        r2.trans (listSwap_perm _ _ _ hiN hltN), ?_, r4, r5, r6⟩
      intro k hk
      rw [r3 k hk, getE_listSwap_other _ _ _ _ (by omega) (by omega)]
    · by_cases c2 : pivot < getE arr i.toNat
      · simp only [if_neg c1, if_pos c2] at ih ⊢
        have hbelow' : ∀ k : Nat, low ≤ (k : Int) → (k : Int) < lt →
            getE (listSwap arr i.toNat gt.toNat) k < pivot := by
          intro k hk1 hk2
          rw [getE_listSwap_other _ _ _ _ (by omega) (by omega)]
          exact hbelow k hk1 hk2
        have hequal' : ∀ k : Nat, lt ≤ (k : Int) → (k : Int) < i →
            getE (listSwap arr i.toNat gt.toNat) k = pivot := by
          intro k hk1 hk2
          rw [getE_listSwap_other _ _ _ _ (by omega) (by omega)]
          exact hequal k hk1 hk2
        have habove' : ∀ k : Nat, gt - 1 < (k : Int) → (k : Int) ≤ high →
            pivot < getE (listSwap arr i.toNat gt.toNat) k := by
          intro k hk1 hk2
          by_cases hkg : (k : Int) = gt
          · have : k = gt.toNat := by omega
            rw [this, getE_listSwap_right _ _ _ hgtN]
            exact c2
          · rw [getE_listSwap_other _ _ _ _ (by omega) (by omega)]
            exact habove k (by omega) hk2
        obtain ⟨r1, r2, r3, r4, r5, r6⟩ := ih low high h0 h1 h2 (by omega)
          (by omega) (by rw [length_listSwap]; exact h5) hbelow' hequal' habove'
        refine ⟨r1.trans (length_listSwap _ _ _),
          r2.trans (listSwap_perm _ _ _ hiN hgtN), ?_, r4, r5, r6⟩
        intro k hk
        rw [r3 k hk, getE_listSwap_other _ _ _ _ (by omega) (by omega)]
      · simp only [if_neg c1, if_neg c2] at ih ⊢
        have hiv : getE arr i.toNat = pivot := le_antisymm (not_lt.mp c2) (not_lt.mp c1)
        have hequal' : ∀ k : Nat, lt ≤ (k : Int) → (k : Int) < i + 1 →
            getE arr k = pivot := by
          intro k hk1 hk2
          by_cases hki : (k : Int) < i
          · exact hequal k hk1 hki
          · have : k = i.toNat := by omega
            rw [this]
            exact hiv
        exact ih low high h0 h1 (by omega) (by omega) h4 h5 hbelow hequal' habove
  | case2 arr pivot lt i gt h =>
    intro low high h0 h1 h2 h3 h4 h5 hbelow hequal habove
    rw [dutchLoop, dif_neg h]
    dsimp only
    refine ⟨rfl, .refl _, fun k _ => rfl, hbelow, ?_, habove⟩
    intro k hk1 hk2
    exact hequal k hk1 (by omega)

theorem three_way_unfold (arr : List Int) (low high : Int) (h : low < high)
    (a0 : List Int) (lt gt : Int)
    (heq : dutchLoop arr (getE arr low.toNat) low (low + 1) high = (a0, lt, gt)) :
    three_way_partition_sort arr low high =
      three_way_partition_sort
        (if 0 < lt then three_way_partition_sort a0 low (lt - 1) else a0)
        (gt + 1) high := by
  rw [three_way_partition_sort, dif_pos h]
  simp only [heq]

theorem three_way_sort_correct :
    ∀ (n : Nat) (arr : List Int) (low high : Int),
    (high + 1 - low).toNat ≤ n → 0 ≤ low → high < (arr.length : Int) →
    (three_way_partition_sort arr low high).length = arr.length ∧
    (three_way_partition_sort arr low high).Perm arr ∧
    (∀ k : Nat, (k : Int) < low ∨ high < (k : Int) →
      getE (three_way_partition_sort arr low high) k = getE arr k) ∧
    (∀ a b : Nat, low ≤ (a : Int) → a ≤ b → (b : Int) ≤ high →
      getE (three_way_partition_sort arr low high) a ≤
        getE (three_way_partition_sort arr low high) b) := by
  intro n
  induction n with
  | zero =>
    intro arr low high hm h0 hlen
    have h : ¬ low < high := by omega
    rw [three_way_partition_sort, dif_neg h]
    exact ⟨rfl, .refl _, fun k _ => rfl, fun a b h1 h2 h3 => by exfalso; omega⟩
  | succ n ih =>
    intro arr low high hm h0 hlen
    by_cases h : low < high
    case neg =>
      rw [three_way_partition_sort, dif_neg h]
      refine ⟨rfl, .refl _, fun k _ => rfl, fun a b h1 h2 h3 => ?_⟩
      have : a = b := by omega
      rw [this]
    case pos =>
    set pV := getE arr low.toNat with hpV
    obtain ⟨a0, lt, gt, heq⟩ :
        ∃ x y z, dutchLoop arr pV low (low + 1) high = (x, y, z) := ⟨_, _, _, rfl⟩
    have hbnd := dutchLoop_bounds arr pV low (low + 1) high (by omega) (by omega)
    rw [heq] at hbnd
    dsimp only at hbnd
    obtain ⟨blt, bltgt, bgt⟩ := hbnd
    obtain ⟨d1, d2, d3, d4, d5, d6⟩ :=
      dutchLoop_spec arr pV low (low + 1) high low high h0 le_rfl (by omega)
        (by omega) le_rfl hlen
        (fun k hk1 hk2 => by exfalso; omega)
        (fun k hk1 hk2 => by
          have : k = low.toNat := by omega
          rw [this])
        (fun k hk1 hk2 => by exfalso; omega)
    rw [heq] at d1 d2 d3 d4 d5 d6
    dsimp only at d1 d2 d3 d4 d5 d6
    rw [three_way_unfold arr low high h a0 lt gt heq]
    set a1 := if 0 < lt then three_way_partition_sort a0 low (lt - 1) else a0
      with ha1
    have hA : a1.length = arr.length ∧ a1.Perm arr ∧
        (∀ k : Nat, (k : Int) < low ∨ high < (k : Int) →
          getE a1 k = getE arr k) ∧
        (∀ k : Nat, lt ≤ (k : Int) → getE a1 k = getE a0 k) ∧
        (∀ a b : Nat, low ≤ (a : Int) → a ≤ b → (b : Int) ≤ lt - 1 →
          getE a1 a ≤ getE a1 b) ∧
        (∀ k : Nat, low ≤ (k : Int) → (k : Int) < lt → getE a1 k < pV) := by
      by_cases hlt0 : 0 < lt
      · rw [ha1, if_pos hlt0]
        obtain ⟨l1, l2, l3, l4⟩ := ih a0 low (lt - 1) (by omega) h0 (by omega)
        refine ⟨l1.trans d1, l2.trans d2, ?_, ?_, l4, ?_⟩
        · intro k hk
          rw [l3 k (by omega)]
          exact d3 k hk
        · intro k hk
          exact l3 k (by omega)
        · intro k hk1 hk2
          have hb := seg_value_bound a0 _ low.toNat (lt - 1).toNat
            (fun x => x < pV) l1 l2
            (fun m hm => l3 m (by omega)) (by omega)
            (fun m hm1 hm2 => d4 m (by omega) (by omega))
          exact hb k (by omega) (by omega)
      · rw [ha1, if_neg hlt0]
        exact ⟨d1, d2, d3, fun k _ => rfl,
          fun a b h1 h2 h3 => by exfalso; omega,
          fun k h1 h2 => by exfalso; omega⟩
    obtain ⟨A_len, A_perm, A_frame, A_keep, A_sortl, A_below⟩ := hA
    have A_equal : ∀ k : Nat, lt ≤ (k : Int) → (k : Int) ≤ gt → getE a1 k = pV := by
      intro k h1 h2
      rw [A_keep k h1]
      exact d5 k h1 h2
    have A_above : ∀ k : Nat, gt < (k : Int) → (k : Int) ≤ high → pV < getE a1 k := by
      intro k h1 h2
      rw [A_keep k (by omega)]
      exact d6 k h1 h2
    obtain ⟨r1, r2, r3, r4⟩ := ih a1 (gt + 1) high (by omega) (by omega)
      (by rw [A_len]; exact hlen)
    set outF := three_way_partition_sort a1 (gt + 1) high with houtF
    have R_keep : ∀ k : Nat, (k : Int) ≤ gt → getE outF k = getE a1 k := by
      intro k hk
      exact r3 k (Or.inl (by omega))
    have O_above : ∀ k : Nat, gt < (k : Int) → (k : Int) ≤ high →
        pV < getE outF k := by
      intro k h1 h2
      have hb := seg_value_bound a1 outF (gt + 1).toNat high.toNat
        (fun x => pV < x) r1 r2
        (fun m hm => r3 m (by omega)) (by omega)
        (fun m hm1 hm2 => A_above m (by omega) (by omega))
      exact hb k (by omega) (by omega)
    refine ⟨r1.trans A_len, r2.trans A_perm, ?_, ?_⟩
    · intro k hk
      have h1 : getE outF k = getE a1 k := by
        rcases hk with hk | hk
        · exact r3 k (Or.inl (by omega))
        · exact r3 k (Or.inr hk)
      rw [h1]
      exact A_frame k hk
    · intro a b hab1 hab2 hab3
      by_cases hblt : (b : Int) < lt
      · rw [R_keep a (by omega), R_keep b (by omega)]
        exact A_sortl a b hab1 hab2 (by omega)
      · by_cases hagt : gt < (a : Int)
        · exact r4 a b (by omega) hab2 hab3
        · have hleft : getE outF a ≤ pV := by
            by_cases halt : (a : Int) < lt
            · rw [R_keep a (by omega)]
              exact le_of_lt (A_below a hab1 halt)
            · rw [R_keep a (by omega), A_equal a (by omega) (by omega)]
          have hright : pV ≤ getE outF b := by
            by_cases hbgt : gt < (b : Int)
            · exact le_of_lt (O_above b hbgt hab3)
            · rw [R_keep b (by omega), A_equal b (by omega) (by omega)]
          exact hleft.trans hright

/-!
## Mergesort (`mergesort.c`)

The element type is generic with a `key : α → Int` giving the `int` value
the C code compares; `α := Int, key := id` is the C function itself, and
`α := Int × Nat` with `key := Prod.fst` is the index-tagged variant used to
state stability.
-/

/-- The three merge loops of `merge` (mergesort.c:47-70) on the two
temporary runs: while both are nonempty emit the smaller head, preferring
the left run on ties (`left_arr[i] <= right_arr[j]`); afterwards flush the
leftover run verbatim. -/
def mergeLists {α : Type} (key : α → Int) : List α → List α → List α
  | [], r => r
  | l, [] => l
  | a :: l, b :: r =>
    if key a ≤ key b then a :: mergeLists key l (b :: r)
    else b :: mergeLists key (a :: l) r
termination_by l r => l.length + r.length

/-- `merge` (mergesort.c:19-74): copy `arr[left..mid]` and
`arr[mid+1..right]` into temporaries, merge them, and write the result
back over `arr[left..right]` (the write index `k` starts at `left` and
advances once per emitted element). -/
def merge {α : Type} (key : α → Int) (arr : List α) (left mid right : Nat) :
    List α :=
  arr.take left ++
    mergeLists key ((arr.drop left).take (mid + 1 - left))
      ((arr.drop (mid + 1)).take (right - mid)) ++
    arr.drop (right + 1)

/-- `mergesort_recursive` (mergesort.c:79-90). -/
def mergesort_recursive {α : Type} (key : α → Int) (arr : List α)
    (left right : Nat) : List α :=
  if left < right then
    let mid := left + (right - left) / 2
    let s1 := mergesort_recursive key arr left mid
    let s2 := mergesort_recursive key s1 (mid + 1) right
    merge key s2 left mid right
  else
    arr
termination_by right - left
decreasing_by
  · omega
  · omega

/-- `mergesort` (mergesort.c:95-99). -/
def mergesort {α : Type} (key : α → Int) (arr : List α) : List α :=
  if 1 < arr.length then mergesort_recursive key arr 0 (arr.length - 1) else arr

/-- List-level top-down mergesort splitting where `mergesort_recursive`
splits (`(m + 1) / 2` of a segment of length `m`); used to relate the
array-range code to a structural recursion. -/
def msortL {α : Type} (key : α → Int) (l : List α) : List α :=
  if h : l.length ≤ 1 then l
  else
    mergeLists key (msortL key (l.take ((l.length + 1) / 2)))
      (msortL key (l.drop ((l.length + 1) / 2)))
termination_by l.length
decreasing_by
  · simp only [List.length_take]
    omega
  · simp only [List.length_drop]
    omega

theorem mergeLists_perm {α : Type} (key : α → Int) :
    ∀ (l r : List α), (mergeLists key l r).Perm (l ++ r) := by
  intro l r
  induction l, r using mergeLists.induct key with
  | case1 r => simp [mergeLists]
  | case2 l => rw [mergeLists.eq_def]; cases l <;> simp
  | case3 a l b r hle ih =>
    rw [mergeLists, if_pos hle]
    exact (ih.cons a)
  | case4 a l b r hle ih =>
    rw [mergeLists, if_neg hle]
    exact (ih.cons b).trans List.perm_middle.symm

/-- Non-decreasing by compared key. -/
def keySorted {α : Type} (key : α → Int) (l : List α) : Prop :=
  l.Pairwise (fun x y => key x ≤ key y)

theorem mergeLists_mem {α : Type} (key : α → Int) (l r : List α) (x : α) :
    x ∈ mergeLists key l r ↔ x ∈ l ∨ x ∈ r := by
  rw [(mergeLists_perm key l r).mem_iff]
  simp

theorem keySorted_mergeLists {α : Type} (key : α → Int) :
    ∀ (l r : List α), keySorted key l → keySorted key r →
    keySorted key (mergeLists key l r) := by
  intro l r
  induction l, r using mergeLists.induct key with
  | case1 r =>
    intro _ hr
    simpa [mergeLists] using hr
  | case2 l =>
    intro hl _
    rw [mergeLists.eq_def]
    cases l <;> simpa using hl
  | case3 a l b r hle ih =>
    intro hl hr
    rw [mergeLists, if_pos hle]
    refine List.Pairwise.cons ?_ (ih (List.Pairwise.of_cons hl) hr)
    intro x hx
    rcases (mergeLists_mem key l (b :: r) x).mp hx with hx | hx
    · exact List.rel_of_pairwise_cons hl hx
    · rcases List.mem_cons.mp hx with rfl | hx
      · exact hle
      · exact hle.trans (List.rel_of_pairwise_cons hr hx)
  | case4 a l b r hle ih =>
    intro hl hr
    rw [mergeLists, if_neg hle]
    refine List.Pairwise.cons ?_ (ih hl (List.Pairwise.of_cons hr))
    intro x hx
    rcases (mergeLists_mem key (a :: l) r x).mp hx with hx | hx
    · rcases List.mem_cons.mp hx with rfl | hx
      · exact le_of_lt (lt_of_not_le hle)
      · exact (le_of_lt (lt_of_not_le hle)).trans (List.rel_of_pairwise_cons hl hx)
    · exact List.rel_of_pairwise_cons hr hx

theorem msortL_perm {α : Type} (key : α → Int) :
    ∀ l : List α, (msortL key l).Perm l := by
  intro l
  induction l using msortL.induct key with
  | case1 l h =>
    rw [msortL, dif_pos h]
  | case2 l h ih1 ih2 =>
    rw [msortL, dif_neg h]
    refine (mergeLists_perm key _ _).trans ?_
    refine (ih1.append ih2).trans ?_
    rw [List.take_append_drop]

theorem msortL_length {α : Type} (key : α → Int) (l : List α) :
    (msortL key l).length = l.length :=
  (msortL_perm key l).length_eq

theorem keySorted_msortL {α : Type} (key : α → Int) :
    ∀ l : List α, keySorted key (msortL key l) := by
  intro l
  induction l using msortL.induct key with
  | case1 l h =>
    rw [msortL, dif_pos h]
    match l, h with
    | [], _ => exact List.Pairwise.nil
    | [x], _ => exact List.pairwise_singleton _ x
  | case2 l h ih1 ih2 =>
    rw [msortL, dif_neg h]
    exact keySorted_mergeLists key _ _ ih1 ih2

theorem mergesort_recursive_unfold {α : Type} (key : α → Int) (arr : List α)
    (left right : Nat) (h : left < right) :
    mergesort_recursive key arr left right =
      merge key
        (mergesort_recursive key
          (mergesort_recursive key arr left (left + (right - left) / 2))
          (left + (right - left) / 2 + 1) right)
        left (left + (right - left) / 2) right := by
  rw [mergesort_recursive, if_pos h]

theorem splice_singleton {α : Type} (key : α → Int) (arr : List α) (left : Nat) :
    arr.take left ++ msortL key ((arr.drop left).take (left + 1 - left)) ++
      arr.drop (left + 1) = arr := by
  have hseg : left + 1 - left = 1 := by omega
  rw [hseg]
  have hlen1 : ((arr.drop left).take 1).length ≤ 1 := by
    simp [List.length_take]
  rw [msortL, dif_pos hlen1]
  have h2 : arr.drop (left + 1) = (arr.drop left).drop 1 := by
    rw [List.drop_drop]
  rw [List.append_assoc, h2, List.take_append_drop, List.take_append_drop]

theorem mergesort_recursive_eq {α : Type} (key : α → Int) :
    ∀ (n : Nat) (arr : List α) (left right : Nat), right - left ≤ n →
    left ≤ right → right < arr.length →
    mergesort_recursive key arr left right =
      arr.take left ++ msortL key ((arr.drop left).take (right + 1 - left)) ++
        arr.drop (right + 1) := by
  intro n
  induction n with
  | zero =>
    intro arr left right hm hlr hlen
    have he : left = right := by omega
    subst he
    rw [mergesort_recursive, if_neg (lt_irrefl left), splice_singleton]
  | succ n ih =>
    intro arr left right hm hlr hlen
    by_cases h : left < right
    case neg =>
      have he : left = right := by omega
      subst he
      rw [mergesort_recursive, if_neg (lt_irrefl left), splice_singleton]
    case pos =>
    rw [mergesort_recursive_unfold key arr left right h]
    set mid := left + (right - left) / 2 with hmid
    have hlm : left ≤ mid := by omega
    have hmr : mid < right := by omega
    have hmlen : mid < arr.length := by omega
    have hs1 := ih arr left mid (by omega) hlm hmlen
    set A := arr.take left with hA
    set M1 := msortL key ((arr.drop left).take (mid + 1 - left)) with hM1
    set B := arr.drop (mid + 1) with hB
    have hAlen : A.length = left := by
      rw [hA, List.length_take]
      omega
    have hM1len : M1.length = mid + 1 - left := by
      rw [hM1, msortL_length, List.length_take, List.length_drop]
      omega
    have hAMlen : (A ++ M1).length = mid + 1 := by
      rw [List.length_append, hAlen, hM1len]
      omega
    have hs1len : (mergesort_recursive key arr left mid).length = arr.length := by
      rw [hs1]
      simp only [List.length_append, hAlen, hM1len, hB, List.length_drop]
      omega
    have hs2 := ih (mergesort_recursive key arr left mid) (mid + 1) right
      (by omega) (by omega) (by omega)
    rw [hs1] at hs2
    have e1 : ((A ++ M1) ++ B).take (mid + 1) = A ++ M1 := List.take_left' hAMlen
    have e2 : ((A ++ M1) ++ B).drop (mid + 1) = B := List.drop_left' hAMlen
    have e3 : ((A ++ M1) ++ B).drop (right + 1) = B.drop (right - mid) := by
      have hr : right + 1 = (A ++ M1).length + (right - mid) := by
        rw [hAMlen]; omega
      rw [hr, List.drop_append]
    have e4 : B.drop (right - mid) = arr.drop (right + 1) := by
      rw [hB, List.drop_drop]
      congr 1
      omega
    have e5 : right + 1 - (mid + 1) = right - mid := by omega
    rw [e1, e2, e3, e4, e5] at hs2
    set M2 := msortL key (B.take (right - mid)) with hM2
    have hM2len : M2.length = right - mid := by
      rw [hM2, msortL_length, List.length_take, hB, List.length_drop]
      omega
    rw [hs1, hs2, merge]
    set D := arr.drop (right + 1) with hD
    have f1 : ((A ++ M1) ++ M2 ++ D).take left = A := by
      rw [List.append_assoc (A ++ M1) M2 D, List.append_assoc A M1 (M2 ++ D)]
      exact List.take_left' hAlen
    have f2 : (((A ++ M1) ++ M2 ++ D).drop left).take (mid + 1 - left) = M1 := by
      rw [List.append_assoc (A ++ M1) M2 D, List.append_assoc A M1 (M2 ++ D),
        List.drop_left' hAlen]
      exact List.take_left' hM1len
    have f3 : ((A ++ M1) ++ M2 ++ D).drop (mid + 1) = M2 ++ D := by
      rw [List.append_assoc (A ++ M1) M2 D]
      exact List.drop_left' hAMlen
    have f4 : (M2 ++ D).take (right - mid) = M2 := List.take_left' hM2len
    have f5 : ((A ++ M1) ++ M2 ++ D).drop (right + 1) = D := by
      refine List.drop_left' ?_
      rw [List.length_append, hAMlen, hM2len]
      omega
    rw [f1, f2, f3, f4, f5]
    set seg := (arr.drop left).take (right + 1 - left) with hseg
    have hseglen : seg.length = right + 1 - left := by
      rw [hseg, List.length_take, List.length_drop]
      omega
    have hsegbig : ¬ seg.length ≤ 1 := by omega
    rw [msortL, dif_neg hsegbig]
    have g0 : (seg.length + 1) / 2 = mid + 1 - left := by
      rw [hseglen]; omega
    rw [g0]
    have g1 : seg.take (mid + 1 - left) = (arr.drop left).take (mid + 1 - left) := by
      rw [hseg, List.take_take]
      congr 1
      omega
    have g2 : seg.drop (mid + 1 - left) = B.take (right - mid) := by
      rw [hseg, List.drop_take, List.drop_drop, hB]
      congr 1
      · omega
      · congr 1
        omega
    rw [g1, g2]

theorem mergesort_eq_msortL {α : Type} (key : α → Int) (arr : List α) :
    mergesort key arr = msortL key arr := by
  rw [mergesort]
  by_cases h : 1 < arr.length
  · rw [if_pos h]
    rw [mergesort_recursive_eq key (arr.length - 1) arr 0 (arr.length - 1)
      (by omega) (by omega) (by omega)]
    have h1 : arr.length - 1 + 1 - 0 = arr.length := by omega
    have h2 : arr.length - 1 + 1 = arr.length := by omega
    simp [h1, h2]
  · rw [if_neg h]
    rw [msortL, dif_pos (by omega)]

theorem mergesort_keySorted {α : Type} (key : α → Int) (arr : List α) :
    keySorted key (mergesort key arr) := by
  rw [mergesort_eq_msortL]
  exact keySorted_msortL key arr

theorem mergesort_perm {α : Type} (key : α → Int) (arr : List α) :
    (mergesort key arr).Perm arr := by
  rw [mergesort_eq_msortL]
  exact msortL_perm key arr

/-!
### Stability of mergesort
-/

/-- Tag each element with its position, counting from `i`. -/
def tagFrom (i : Nat) : List Int → List (Int × Nat)
  | [] => []
  | x :: xs => (x, i) :: tagFrom (i + 1) xs

/-- The input tagged with its indices `0, 1, 2, …`. -/
def tagged (l : List Int) : List (Int × Nat) := tagFrom 0 l

/-- Sorted by value with ties in increasing tag (original index) order. -/
def lexSorted (l : List (Int × Nat)) : Prop :=
  l.Pairwise (fun x y => x.1 < y.1 ∨ (x.1 = y.1 ∧ x.2 < y.2))

theorem mem_tagFrom (i : Nat) (l : List Int) (y : Int × Nat)
    (hy : y ∈ tagFrom i l) : i ≤ y.2 := by
  induction l generalizing i with
  | nil => simp [tagFrom] at hy
  | cons x xs ih =>
    rcases List.mem_cons.mp hy with rfl | hy
    · exact le_refl _
    · exact (Nat.le_succ i).trans (ih (i + 1) hy)

theorem tagFrom_tags_increasing (i : Nat) (l : List Int) :
    (tagFrom i l).Pairwise (fun x y => x.2 < y.2) := by
  induction l generalizing i with
  | nil => exact List.Pairwise.nil
  | cons x xs ih =>
    refine List.Pairwise.cons ?_ (ih (i + 1))
    intro y hy
    exact lt_of_lt_of_le (Nat.lt_succ_self i) (mem_tagFrom (i + 1) xs y hy)

theorem map_fst_tagFrom (i : Nat) (l : List Int) :
    (tagFrom i l).map Prod.fst = l := by
  induction l generalizing i with
  | nil => rfl
  | cons x xs ih => simp [tagFrom, ih]

theorem lex_fst_le {x y : Int × Nat}
    (h : x.1 < y.1 ∨ (x.1 = y.1 ∧ x.2 < y.2)) : x.1 ≤ y.1 := by
  rcases h with h | ⟨h, _⟩
  · exact le_of_lt h
  · exact le_of_eq h

theorem lexSorted_mergeLists :
    ∀ l r : List (Int × Nat), lexSorted l → lexSorted r →
    (∀ x ∈ l, ∀ y ∈ r, x.2 < y.2) →
    lexSorted (mergeLists (fun p => p.1) l r) := by
  intro l r
  induction l, r using mergeLists.induct (fun p : Int × Nat => p.1) with
  | case1 r =>
    intro _ hr _
    simpa [mergeLists] using hr
  | case2 l =>
    intro hl _ _
    rw [mergeLists.eq_def]
    cases l <;> simpa using hl
  | case3 a l b r hle ih =>
    intro hl hr hcross
    rw [mergeLists, if_pos hle]
    refine List.Pairwise.cons ?_ (ih (List.Pairwise.of_cons hl) hr ?_)
    · intro x hx
      rcases (mergeLists_mem _ l (b :: r) x).mp hx with hx | hx
      · exact List.rel_of_pairwise_cons hl hx
      · have hb1 : b.1 ≤ x.1 := by
          rcases List.mem_cons.mp hx with rfl | hx'
          · exact le_refl _
          · exact lex_fst_le (List.rel_of_pairwise_cons hr hx')
        rcases lt_or_eq_of_le (hle.trans hb1) with h1 | h1
        · exact Or.inl h1
        · exact Or.inr ⟨h1, hcross a (List.mem_cons_self a l) x hx⟩
    · intro x hx y hy
      exact hcross x (List.mem_cons_of_mem a hx) y hy
  | case4 a l b r hle ih =>
    intro hl hr hcross
    rw [mergeLists, if_neg hle]
    refine List.Pairwise.cons ?_ (ih hl (List.Pairwise.of_cons hr) ?_)
    · intro x hx
      rcases (mergeLists_mem _ (a :: l) r x).mp hx with hx | hx
      · have ha1 : a.1 ≤ x.1 := by
          rcases List.mem_cons.mp hx with rfl | hx'
          · exact le_refl _
          · exact lex_fst_le (List.rel_of_pairwise_cons hl hx')
        exact Or.inl (lt_of_lt_of_le (lt_of_not_le hle) ha1)
      · exact List.rel_of_pairwise_cons hr hx
    · intro x hx y hy
      exact hcross x hx y (List.mem_cons_of_mem b hy)

theorem lexSorted_msortL :
    ∀ l : List (Int × Nat), l.Pairwise (fun x y => x.2 < y.2) →
    lexSorted (msortL (fun p => p.1) l) := by
  intro l
  induction l using msortL.induct (fun p : Int × Nat => p.1) with
  | case1 l h =>
    intro _
    rw [msortL, dif_pos h]
    match l, h with
    | [], _ => exact List.Pairwise.nil
    | [x], _ => exact List.pairwise_singleton _ x
  | case2 l h ih1 ih2 =>
    intro htags
    rw [msortL, dif_neg h]
    have hsplit : l.take ((l.length + 1) / 2) ++ l.drop ((l.length + 1) / 2) = l :=
      List.take_append_drop _ l
    have hpw : (l.take ((l.length + 1) / 2) ++
        l.drop ((l.length + 1) / 2)).Pairwise (fun x y => x.2 < y.2) := by
      rw [hsplit]; exact htags
    obtain ⟨ht1, ht2, hcross⟩ := List.pairwise_append.mp hpw
    refine lexSorted_mergeLists _ _ (ih1 ht1) (ih2 ht2) ?_
    intro x hx y hy
    exact hcross x ((msortL_perm _ _).mem_iff.mp hx) y
      ((msortL_perm _ _).mem_iff.mp hy)

theorem mergesort_stable (l : List Int) :
    lexSorted (mergesort (fun p => p.1) (tagged l)) := by
  rw [mergesort_eq_msortL]
  exact lexSorted_msortL (tagged l) (tagFrom_tags_increasing 0 l)

/-!
## Value-partitioning ("functional") quicksort (`quicksort.c:72-157`)

Generic in the element type with `key : α → Int` the compared `int` value:
`α := Int, key := id` is the C function, `α := Int × Nat, key := Prod.fst`
the index-tagged variant for the stability analysis.
-/

theorem getD_mem {α : Type} [Inhabited α] (l : List α) (n : Nat)
    (h : n < l.length) : l.getD n default ∈ l := by
  rw [List.getD_eq_getElem?_getD, List.getElem?_eq_getElem h]
  exact List.getElem_mem h

/-- `merge_arrays` (quicksort.c:134-157): three sequential copy loops, i.e.
concatenation. -/
def merge_arrays {α : Type} (a1 a2 a3 : List α) : List α := a1 ++ a2 ++ a3

/-- `quicksort_functional` (quicksort.c:72-132): base case returns a copy;
otherwise `pivot = arr[size / 2]`, one left-to-right scan fills the
`less` / `equal` / `greater` partitions in input order (the preceding
counting pass only sizes the allocations exactly), the outer two are
sorted recursively and `merge_arrays` concatenates the results. -/
def quicksort_functional {α : Type} [Inhabited α] (key : α → Int)
    (arr : List α) : List α :=
  if arr.length ≤ 1 then arr
  else
    let pivot := arr.getD (arr.length / 2) default
    merge_arrays
      (quicksort_functional key (arr.filter (fun x => decide (key x < key pivot))))
      (arr.filter (fun x => decide (key x = key pivot)))
      (quicksort_functional key (arr.filter (fun x => decide (key pivot < key x))))
termination_by arr.length
decreasing_by
  · refine lt_of_lt_of_le ?_ (le_refl arr.length)
    refine List.length_filter_lt_length_iff_exists.mpr ?_
    refine ⟨arr.getD (arr.length / 2) default, getD_mem arr _ (by omega), ?_⟩
    simp
  · refine List.length_filter_lt_length_iff_exists.mpr ?_
    refine ⟨arr.getD (arr.length / 2) default, getD_mem arr _ (by omega), ?_⟩
    simp

theorem quicksort_functional_unfold {α : Type} [Inhabited α] (key : α → Int)
    (arr : List α) (h : ¬ arr.length ≤ 1) :
    quicksort_functional key arr =
      merge_arrays
        (quicksort_functional key (arr.filter (fun x =>
          decide (key x < key (arr.getD (arr.length / 2) default)))))
        (arr.filter (fun x =>
          decide (key x = key (arr.getD (arr.length / 2) default))))
        (quicksort_functional key (arr.filter (fun x =>
          decide (key (arr.getD (arr.length / 2) default) < key x)))) := by
  rw [quicksort_functional, if_neg h]

theorem filter_three_perm {α : Type} (f : α → Int) (c : Int) (l : List α) :
    (l.filter (fun x => decide (f x < c)) ++ l.filter (fun x => decide (f x = c)) ++
      l.filter (fun x => decide (c < f x))).Perm l := by
  induction l with
  | nil => simp
  | cons x xs ih =>
    rcases lt_trichotomy (f x) c with hx | hx | hx
    · rw [List.filter_cons_of_pos (by simpa using hx),
        List.filter_cons_of_neg (by simp; omega),
        List.filter_cons_of_neg (by simp; omega)]
      exact ih.cons x
    · rw [List.filter_cons_of_neg (by simp; omega),
        List.filter_cons_of_pos (by simpa using hx),
        List.filter_cons_of_neg (by simp; omega)]
      exact (List.perm_middle.append_right _).trans (ih.cons x)
    · rw [List.filter_cons_of_neg (by simp; omega),
        List.filter_cons_of_neg (by simp; omega),
        List.filter_cons_of_pos (by simpa using hx)]
      exact List.perm_middle.trans (ih.cons x)

theorem qf_filters_shorter {α : Type} [Inhabited α] (key : α → Int)
    (arr : List α) (h : ¬ arr.length ≤ 1) :
    (arr.filter (fun x =>
      decide (key x < key (arr.getD (arr.length / 2) default)))).length < arr.length ∧
    (arr.filter (fun x =>
      decide (key (arr.getD (arr.length / 2) default) < key x))).length < arr.length := by
  constructor
  · refine List.length_filter_lt_length_iff_exists.mpr ?_
    exact ⟨arr.getD (arr.length / 2) default, getD_mem arr _ (by omega), by simp⟩
  · refine List.length_filter_lt_length_iff_exists.mpr ?_
    exact ⟨arr.getD (arr.length / 2) default, getD_mem arr _ (by omega), by simp⟩

theorem quicksort_functional_perm {α : Type} [Inhabited α] (key : α → Int) :
    ∀ (n : Nat) (arr : List α), arr.length ≤ n →
    (quicksort_functional key arr).Perm arr := by
  intro n
  induction n with
  | zero =>
    intro arr h
    rw [quicksort_functional, if_pos (by omega)]
  | succ n ih =>
    intro arr h
    by_cases h1 : arr.length ≤ 1
    · rw [quicksort_functional, if_pos h1]
    · rw [quicksort_functional_unfold key arr h1, merge_arrays]
      obtain ⟨hle, hgr⟩ := qf_filters_shorter key arr h1
      have hL := ih (arr.filter (fun x =>
        decide (key x < key (arr.getD (arr.length / 2) default)))) (by omega)
      have hG := ih (arr.filter (fun x =>
        decide (key (arr.getD (arr.length / 2) default) < key x))) (by omega)
      have hE : (arr.filter (fun x =>
          decide (key x = key (arr.getD (arr.length / 2) default)))).Perm
          (arr.filter (fun x =>
          decide (key x = key (arr.getD (arr.length / 2) default)))) := .refl _
      exact ((hL.append hE).append hG).trans
        (filter_three_perm key (key (arr.getD (arr.length / 2) default)) arr)

theorem quicksort_functional_length {α : Type} [Inhabited α] (key : α → Int)
    (arr : List α) : (quicksort_functional key arr).length = arr.length :=
  (quicksort_functional_perm key arr.length arr le_rfl).length_eq

theorem quicksort_functional_keySorted {α : Type} [Inhabited α] (key : α → Int) :
    ∀ (n : Nat) (arr : List α), arr.length ≤ n →
    keySorted key (quicksort_functional key arr) := by
  intro n
  induction n with
  | zero =>
    intro arr h
    rw [quicksort_functional, if_pos (by omega)]
    have : arr = [] := List.length_eq_zero.mp (by omega)
    rw [this]
    exact List.Pairwise.nil
  | succ n ih =>
    intro arr h
    by_cases h1 : arr.length ≤ 1
    · rw [quicksort_functional, if_pos h1]
      match arr, h1 with
      | [], _ => exact List.Pairwise.nil
      | [x], _ => exact List.pairwise_singleton _ x
    · rw [quicksort_functional_unfold key arr h1, merge_arrays]
      obtain ⟨hle, hgr⟩ := qf_filters_shorter key arr h1
      set pv := key (arr.getD (arr.length / 2) default) with hpv
      have hLs := ih (arr.filter (fun x => decide (key x < pv))) (by omega)
      have hGs := ih (arr.filter (fun x => decide (pv < key x))) (by omega)
      have hLmem : ∀ x ∈ quicksort_functional key
          (arr.filter (fun x => decide (key x < pv))), key x < pv := by
        intro x hx
        have := (quicksort_functional_perm key _ _ le_rfl).mem_iff.mp hx
        simpa using (List.mem_filter.mp this).2
      have hGmem : ∀ x ∈ quicksort_functional key
          (arr.filter (fun x => decide (pv < key x))), pv < key x := by
        intro x hx
        have := (quicksort_functional_perm key _ _ le_rfl).mem_iff.mp hx
        simpa using (List.mem_filter.mp this).2
      have hEmem : ∀ x ∈ arr.filter (fun x => decide (key x = pv)),
          key x = pv := by
        intro x hx
        simpa using (List.mem_filter.mp hx).2
      refine List.pairwise_append.mpr ⟨List.pairwise_append.mpr
        ⟨hLs, ?_, ?_⟩, hGs, ?_⟩
      · exact List.pairwise_of_forall_mem_list
          (fun a ha b hb => le_of_eq ((hEmem a ha).trans (hEmem b hb).symm))
      · intro x hx y hy
        exact le_of_lt (lt_of_lt_of_le (hLmem x hx) (le_of_eq (hEmem y hy).symm))
      · intro x hx y hy
        rcases List.mem_append.mp hx with hx | hx
        · exact le_of_lt ((hLmem x hx).trans (hGmem y hy))
        · exact le_of_lt (lt_of_le_of_lt (le_of_eq (hEmem x hx)) (hGmem y hy))

theorem quicksort_functional_stable_pairwise :
    ∀ (n : Nat) (arr : List (Int × Nat)), arr.length ≤ n →
    arr.Pairwise (fun x y => x.1 = y.1 → x.2 < y.2) →
    (quicksort_functional (fun p => p.1) arr).Pairwise
      (fun x y => x.1 = y.1 → x.2 < y.2) := by
  intro n
  induction n with
  | zero =>
    intro arr h hst
    rw [quicksort_functional, if_pos (by omega)]
    exact hst
  | succ n ih =>
    intro arr h hst
    by_cases h1 : arr.length ≤ 1
    · rw [quicksort_functional, if_pos h1]
      exact hst
    · rw [quicksort_functional_unfold (fun p => p.1) arr h1, merge_arrays]
      obtain ⟨hle, hgr⟩ := qf_filters_shorter (fun p => p.1) arr h1
      set pv := (arr.getD (arr.length / 2) default).1 with hpv
      have hL := ih (arr.filter (fun x => decide (x.1 < pv))) (by omega)
        (List.Pairwise.sublist (List.filter_sublist arr) hst)
      have hG := ih (arr.filter (fun x => decide (pv < x.1))) (by omega)
        (List.Pairwise.sublist (List.filter_sublist arr) hst)
      have hE : (arr.filter (fun x => decide (x.1 = pv))).Pairwise
          (fun x y => x.1 = y.1 → x.2 < y.2) :=
        List.Pairwise.sublist (List.filter_sublist arr) hst
      have hLmem : ∀ x ∈ quicksort_functional (fun p => p.1)
          (arr.filter (fun x => decide (x.1 < pv))), x.1 < pv := by
        intro x hx
        have := (quicksort_functional_perm _ _ _ le_rfl).mem_iff.mp hx
        simpa using (List.mem_filter.mp this).2
      have hGmem : ∀ x ∈ quicksort_functional (fun p => p.1)
          (arr.filter (fun x => decide (pv < x.1))), pv < x.1 := by
        intro x hx
        have := (quicksort_functional_perm _ _ _ le_rfl).mem_iff.mp hx
        simpa using (List.mem_filter.mp this).2
      have hEmem : ∀ x ∈ arr.filter (fun x => decide (x.1 = pv)), x.1 = pv := by
        intro x hx
        simpa using (List.mem_filter.mp hx).2
      refine List.pairwise_append.mpr ⟨List.pairwise_append.mpr
        ⟨hL, hE, ?_⟩, hG, ?_⟩
      · intro x hx y hy hxy
        exfalso
        have h1 := hLmem x hx
        have h2 := hEmem y hy
        omega
      · intro x hx y hy hxy
        exfalso
        rcases List.mem_append.mp hx with hx | hx
        · exact absurd (hLmem x hx) (by rw [hxy]; have := hGmem y hy; omega)
        · exact absurd (hEmem x hx) (by rw [hxy]; have := hGmem y hy; omega)

theorem tagged_stable_pairwise (l : List Int) :
    (tagged l).Pairwise (fun x y => x.1 = y.1 → x.2 < y.2) := by
  refine List.Pairwise.imp ?_ (tagFrom_tags_increasing 0 l)
  intro a b h _
  exact h

/-!
## Heap sort (`heap_sort.c`)
-/

/-- The `largest` computed by `heapify` (heap_sort.c:30-42): start from
`i`, take the left child if `left < heap_size && arr[left] > arr[largest]`,
then the right child likewise. -/
def heapifyLargest (arr : List Int) (heap_size i : Nat) : Nat :=
  let l := 2 * i + 1
  let r := 2 * i + 2
  let largest1 := if l < heap_size ∧ getE arr i < getE arr l then l else i
  if r < heap_size ∧ getE arr largest1 < getE arr r then r else largest1

theorem heapifyLargest_cases (arr : List Int) (hs i : Nat) :
    heapifyLargest arr hs i = i ∨
      ((heapifyLargest arr hs i = 2 * i + 1 ∨ heapifyLargest arr hs i = 2 * i + 2) ∧
        heapifyLargest arr hs i < hs) := by
  rw [heapifyLargest]
  by_cases c1 : 2 * i + 1 < hs ∧ getE arr i < getE arr (2 * i + 1)
  · rw [if_pos c1]
    by_cases c2 : 2 * i + 2 < hs ∧ getE arr (2 * i + 1) < getE arr (2 * i + 2)
    · rw [if_pos c2]
      exact Or.inr ⟨Or.inr rfl, c2.1⟩
    · rw [if_neg c2]
      exact Or.inr ⟨Or.inl rfl, c1.1⟩
  · rw [if_neg c1]
    by_cases c2 : 2 * i + 2 < hs ∧ getE arr i < getE arr (2 * i + 2)
    · rw [if_pos c2]
      exact Or.inr ⟨Or.inr rfl, c2.1⟩
    · rw [if_neg c2]
      exact Or.inl rfl

theorem heapifyLargest_ge (arr : List Int) (hs i : Nat) :
    getE arr i ≤ getE arr (heapifyLargest arr hs i) ∧
    (2 * i + 1 < hs → getE arr (2 * i + 1) ≤ getE arr (heapifyLargest arr hs i)) ∧
    (2 * i + 2 < hs → getE arr (2 * i + 2) ≤ getE arr (heapifyLargest arr hs i)) := by
  rw [heapifyLargest]
  by_cases c1 : 2 * i + 1 < hs ∧ getE arr i < getE arr (2 * i + 1)
  · rw [if_pos c1]
    by_cases c2 : 2 * i + 2 < hs ∧ getE arr (2 * i + 1) < getE arr (2 * i + 2)
    · rw [if_pos c2]
      exact ⟨le_of_lt (c1.2.trans c2.2), fun _ => le_of_lt c2.2,
        fun _ => le_refl _⟩
    · rw [if_neg c2]
      refine ⟨le_of_lt c1.2, fun _ => le_refl _, fun hr => ?_⟩
      rcases not_and_or.mp c2 with h | h
      · omega
      · exact not_lt.mp h
  · rw [if_neg c1]
    by_cases c2 : 2 * i + 2 < hs ∧ getE arr i < getE arr (2 * i + 2)
    · rw [if_pos c2]
      refine ⟨le_of_lt c2.2, fun hl => ?_, fun _ => le_refl _⟩
      rcases not_and_or.mp c1 with h | h
      · omega
      · exact (not_lt.mp h).trans (le_of_lt c2.2)
    · rw [if_neg c2]
      refine ⟨le_refl _, fun hl => ?_, fun hr => ?_⟩
      · rcases not_and_or.mp c1 with h | h
        · omega
        · exact not_lt.mp h
      · rcases not_and_or.mp c2 with h | h
        · omega
        · exact not_lt.mp h

/-- `heapify` (heap_sort.c:29-51): if the larger child beats `arr[i]`,
swap it up and recurse on the affected subtree. -/
def heapify (arr : List Int) (heap_size i : Nat) : List Int :=
  if heapifyLargest arr heap_size i ≠ i then
    heapify (listSwap arr i (heapifyLargest arr heap_size i)) heap_size
      (heapifyLargest arr heap_size i)
  else
    arr
termination_by heap_size - i
decreasing_by
  rcases heapifyLargest_cases arr heap_size i with h | ⟨h1, h2⟩
  · omega
  · omega

/-- The `for (i = size/2 - 1; i >= 0; i--)` loop of `build_max_heap`
(heap_sort.c:56-63); `i` is a C `int`, negative at once when `size ≤ 1`. -/
def buildLoop (arr : List Int) (size : Nat) (i : Int) : List Int :=
  if h : 0 ≤ i then buildLoop (heapify arr size i.toNat) size (i - 1) else arr
termination_by (i + 1).toNat

/-- `build_max_heap` (heap_sort.c:56-63). -/
def build_max_heap (arr : List Int) (size : Nat) : List Int :=
  buildLoop arr size ((size : Int) / 2 - 1)

/-- The extraction loop of `heap_sort` (heap_sort.c:77-83): swap the root
with `arr[i]` and re-heapify the prefix of length `i`. -/
def extractLoop (arr : List Int) (i : Int) : List Int :=
  if h : 0 < i then
    extractLoop (heapify (listSwap arr 0 i.toNat) i.toNat 0) (i - 1)
  else
    arr
termination_by i.toNat

/-- `heap_sort` (heap_sort.c:68-84). -/
def heap_sort (arr : List Int) : List Int :=
  if arr.length ≤ 1 then arr
  else extractLoop (build_max_heap arr arr.length) ((arr.length : Int) - 1)

/-- `j` lies in the subtree rooted at `i` of the binary heap layout
(parent of `j` is `(j - 1) / 2`). -/
def inSub (i j : Nat) : Bool :=
  if j = i then true
  else if j ≤ i then false
  else inSub i ((j - 1) / 2)
termination_by j

/-- The max-heap property for the subtree rooted at `i`, restricted to
indices below `n`: every node is at least its in-range children. -/
def subHeap (arr : List Int) (n i : Nat) : Prop :=
  (∀ _ : 2 * i + 1 < n, getE arr (2 * i + 1) ≤ getE arr i ∧ subHeap arr n (2 * i + 1)) ∧
  (∀ _ : 2 * i + 2 < n, getE arr (2 * i + 2) ≤ getE arr i ∧ subHeap arr n (2 * i + 2))
termination_by n - i
decreasing_by
  · omega
  · omega

theorem inSub_refl (i : Nat) : inSub i i = true := by
  rw [inSub]
  simp

theorem inSub_ge : ∀ (j i : Nat), inSub i j = true → i ≤ j := by
  intro j
  induction j using Nat.strong_induction_on with
  | _ j ih =>
    intro i hij
    rw [inSub] at hij
    split_ifs at hij with h1 h2
    · omega
    · have := ih ((j - 1) / 2) (by omega) i hij
      omega

theorem inSub_parent (i j : Nat) (hne : j ≠ i) (hgt : ¬ j ≤ i) :
    inSub i j = inSub i ((j - 1) / 2) := by
  rw [inSub]
  simp [hne, hgt]

theorem inSub_child (i j c : Nat) (hij : inSub i j = true)
    (hc : c = 2 * j + 1 ∨ c = 2 * j + 2) : inSub i c = true := by
  have hji : i ≤ j := inSub_ge j i hij
  have hcj : (c - 1) / 2 = j := by omega
  rw [inSub]
  split_ifs with h1 h2
  · rfl
  · omega
  · rw [hcj]
    exact hij

theorem inSub_trans : ∀ (c b a : Nat), inSub a b = true → inSub b c = true →
    inSub a c = true := by
  intro c
  induction c using Nat.strong_induction_on with
  | _ c ih =>
    intro b a hab hbc
    rw [inSub] at hbc
    split_ifs at hbc with h1 h2
    · subst h1
      exact hab
    · have h3 : inSub a ((c - 1) / 2) = true := ih ((c - 1) / 2) (by omega) b a hab hbc
      have h4 : a ≤ (c - 1) / 2 := inSub_ge _ _ h3
      have h5 : b ≤ (c - 1) / 2 := inSub_ge _ _ hbc
      rw [inSub]
      split_ifs with g1 g2
      · rfl
      · omega
      · exact h3

theorem inSub_linear : ∀ (k i j : Nat), inSub i k = true → inSub j k = true →
    inSub i j = true ∨ inSub j i = true := by
  intro k
  induction k using Nat.strong_induction_on with
  | _ k ih =>
    intro i j hik hjk
    by_cases h1 : k = i
    · subst h1
      exact Or.inr hjk
    · by_cases h2 : k = j
      · subst h2
        exact Or.inl hik
      · have hi := inSub_ge k i hik
        have hj := inSub_ge k j hjk
        rw [inSub_parent i k h1 (by omega)] at hik
        rw [inSub_parent j k h2 (by omega)] at hjk
        exact ih ((k - 1) / 2) (by omega) i j hik hjk

theorem inSub_zero : ∀ j : Nat, inSub 0 j = true := by
  intro j
  induction j using Nat.strong_induction_on with
  | _ j ih =>
    rw [inSub]
    split_ifs with h1 h2
    · rfl
    · omega
    · exact ih ((j - 1) / 2) (by omega)

theorem subHeap_leaf (arr : List Int) (n i : Nat) (h : n ≤ 2 * i + 1) :
    subHeap arr n i := by
  rw [subHeap]
  exact ⟨fun hc => absurd hc (by omega), fun hc => absurd hc (by omega)⟩

theorem subHeap_mono_fuel :
    ∀ (d : Nat) (arr : List Int) (n m i : Nat), n - i ≤ d → m ≤ n →
    subHeap arr n i → subHeap arr m i := by
  intro d
  induction d with
  | zero =>
    intro arr n m i hd hm _
    exact subHeap_leaf arr m i (by omega)
  | succ d ih =>
    intro arr n m i hd hm h
    rw [subHeap] at h ⊢
    refine ⟨fun hc => ?_, fun hc => ?_⟩
    · obtain ⟨hv, hs⟩ := h.1 (by omega)
      exact ⟨hv, ih arr n m (2 * i + 1) (by omega) hm hs⟩
    · obtain ⟨hv, hs⟩ := h.2 (by omega)
      exact ⟨hv, ih arr n m (2 * i + 2) (by omega) hm hs⟩

theorem subHeap_mono (arr : List Int) (n m i : Nat) (hm : m ≤ n)
    (h : subHeap arr n i) : subHeap arr m i :=
  subHeap_mono_fuel (n - i) arr n m i le_rfl hm h

theorem subHeap_congr_fuel :
    ∀ (d : Nat) (arr brr : List Int) (n i : Nat), n - i ≤ d →
    (∀ k, inSub i k = true → k < n → getE brr k = getE arr k) →
    subHeap arr n i → subHeap brr n i := by
  intro d
  induction d with
  | zero =>
    intro arr brr n i hd _ _
    exact subHeap_leaf brr n i (by omega)
  | succ d ih =>
    intro arr brr n i hd hagree h
    rw [subHeap] at h ⊢
    have hii : inSub i i = true := inSub_refl i
    have hl : inSub i (2 * i + 1) = true := inSub_child i i _ hii (Or.inl rfl)
    have hr : inSub i (2 * i + 2) = true := inSub_child i i _ hii (Or.inr rfl)
    refine ⟨fun hc => ?_, fun hc => ?_⟩
    · obtain ⟨hv, hs⟩ := h.1 hc
      refine ⟨by rw [hagree _ hl hc, hagree _ hii (by omega)]; exact hv, ?_⟩
      refine ih arr brr n (2 * i + 1) (by omega) ?_ hs
      intro k hk hkn
      exact hagree k (inSub_trans k (2 * i + 1) i hl hk) hkn
    · obtain ⟨hv, hs⟩ := h.2 hc
      refine ⟨by rw [hagree _ hr hc, hagree _ hii (by omega)]; exact hv, ?_⟩
      refine ih arr brr n (2 * i + 2) (by omega) ?_ hs
      intro k hk hkn
      exact hagree k (inSub_trans k (2 * i + 2) i hr hk) hkn

theorem subHeap_congr (arr brr : List Int) (n i : Nat)
    (hagree : ∀ k, inSub i k = true → k < n → getE brr k = getE arr k)
    (h : subHeap arr n i) : subHeap brr n i :=
  subHeap_congr_fuel (n - i) arr brr n i le_rfl hagree h

theorem subHeap_at : ∀ (j i : Nat) (arr : List Int) (n : Nat),
    subHeap arr n i → inSub i j = true → subHeap arr n j := by
  intro j
  induction j using Nat.strong_induction_on with
  | _ j ih =>
    intro i arr n hi hij
    by_cases h1 : j = i
    · subst h1
      exact hi
    · have hgt : i ≤ j := inSub_ge j i hij
      rw [inSub_parent i j h1 (by omega)] at hij
      have hp := ih ((j - 1) / 2) (by omega) i arr n hi hij
      by_cases hjn : j < n
      · rw [subHeap] at hp
        have hj2 : j = 2 * ((j - 1) / 2) + 1 ∨ j = 2 * ((j - 1) / 2) + 2 := by omega
        rcases hj2 with hj2 | hj2
        · have := (hp.1 (by omega)).2
          rw [← hj2] at this
          exact this
        · have := (hp.2 (by omega)).2
          rw [← hj2] at this
          exact this
      · exact subHeap_leaf arr n j (by omega)

theorem subHeap_root_max : ∀ (k i : Nat) (arr : List Int) (n : Nat),
    subHeap arr n i → inSub i k = true → k < n → getE arr k ≤ getE arr i := by
  intro k
  induction k using Nat.strong_induction_on with
  | _ k ih =>
    intro i arr n hi hik hkn
    by_cases h1 : k = i
    · subst h1
      exact le_refl _
    · have hgt : i ≤ k := inSub_ge k i hik
      rw [inSub_parent i k h1 (by omega)] at hik
      have hp1 := ih ((k - 1) / 2) (by omega) i arr n hi hik (by omega)
      have hpsub := subHeap_at ((k - 1) / 2) i arr n hi hik
      rw [subHeap] at hpsub
      have hk2 : k = 2 * ((k - 1) / 2) + 1 ∨ k = 2 * ((k - 1) / 2) + 2 := by omega
      have hkp : getE arr k ≤ getE arr ((k - 1) / 2) := by
        rcases hk2 with hk2 | hk2
        · have := (hpsub.1 (by rw [← hk2]; exact hkn)).1
          rw [← hk2] at this
          exact this
        · have := (hpsub.2 (by rw [← hk2]; exact hkn)).1
          rw [← hk2] at this
          exact this
      exact hkp.trans hp1

theorem inSub_false_of_lt (i j : Nat) (h : j < i) : inSub i j = false := by
  cases hb : inSub i j
  · rfl
  · exact absurd (inSub_ge j i hb) (by omega)

theorem inSub_sibling_false (i a b : Nat)
    (ha : a = 2 * i + 1 ∨ a = 2 * i + 2) (hb : b = 2 * i + 1 ∨ b = 2 * i + 2)
    (hne : a ≠ b) : inSub a b = false := by
  cases hs : inSub a b
  · rfl
  · exfalso
    have h1 : a ≤ b := inSub_ge b a hs
    have h2 : a < b := by omega
    rw [inSub_parent a b (by omega) (by omega)] at hs
    have h3 : (b - 1) / 2 = i := by omega
    rw [h3] at hs
    exact absurd (inSub_ge i a hs) (by omega)

theorem inSub_disjoint (L c m : Nat) (hLc : inSub L c = false)
    (hcL : inSub c L = false) (hm : inSub c m = true) : inSub L m = false := by
  cases h : inSub L m
  · rfl
  · rcases inSub_linear m L c h hm with h2 | h2
    · rw [h2] at hLc
      simp at hLc
    · rw [h2] at hcL
      simp at hcL

theorem heapify_length : ∀ (arr : List Int) (hs i : Nat),
    (heapify arr hs i).length = arr.length := by
  intro arr hs i
  induction arr, hs, i using heapify.induct with
  | case1 arr hs i h ih =>
    rw [heapify, if_pos h]
    rw [ih, length_listSwap]
  | case2 arr hs i h =>
    rw [heapify, if_neg h]

theorem heapify_frame : ∀ (arr : List Int) (hs i : Nat), ∀ k : Nat,
    inSub i k = false → getE (heapify arr hs i) k = getE arr k := by
  intro arr hs i
  induction arr, hs, i using heapify.induct with
  | case1 arr hs i h ih =>
    intro k hk
    rw [heapify, if_pos h]
    rcases heapifyLargest_cases arr hs i with hL | ⟨hL, hLhs⟩
    · exact absurd hL h
    · have hiL : inSub i (heapifyLargest arr hs i) = true :=
        inSub_child i i _ (inSub_refl i) hL
      have hki : k ≠ i := by
        intro he
        rw [he, inSub_refl] at hk
        simp at hk
      have hkL : k ≠ heapifyLargest arr hs i := by
        intro he
        rw [he, hiL] at hk
        simp at hk
      have hLk : inSub (heapifyLargest arr hs i) k = false := by
        cases hb : inSub (heapifyLargest arr hs i) k
        · rfl
        · rw [inSub_trans k _ i hiL hb] at hk
          simp at hk
      rw [ih k hLk, getE_listSwap_other _ _ _ _ hki hkL]
  | case2 arr hs i h =>
    intro k _
    rw [heapify, if_neg h]

theorem heapify_untouched_ge : ∀ (arr : List Int) (hs i : Nat), ∀ k : Nat,
    hs ≤ k → getE (heapify arr hs i) k = getE arr k := by
  intro arr hs i
  induction arr, hs, i using heapify.induct with
  | case1 arr hs i h ih =>
    intro k hk
    rw [heapify, if_pos h]
    rcases heapifyLargest_cases arr hs i with hL | ⟨hL, hLhs⟩
    · exact absurd hL h
    · have hihs : i < hs := by omega
      rw [ih k hk, getE_listSwap_other _ _ _ _ (by omega) (by omega)]
  | case2 arr hs i h =>
    intro k _
    rw [heapify, if_neg h]

theorem heapify_perm : ∀ (arr : List Int) (hs i : Nat), hs ≤ arr.length →
    (heapify arr hs i).Perm arr := by
  intro arr hs i
  induction arr, hs, i using heapify.induct with
  | case1 arr hs i h ih =>
    intro hlen
    rw [heapify, if_pos h]
    rcases heapifyLargest_cases arr hs i with hL | ⟨hL, hLhs⟩
    · exact absurd hL h
    · have hihs : i < hs := by omega
      exact (ih (by rw [length_listSwap]; exact hlen)).trans
        (listSwap_perm arr i _ (by omega) (by omega))
  | case2 arr hs i h =>
    intro _
    rw [heapify, if_neg h]

theorem heapify_bound : ∀ (arr : List Int) (hs i : Nat), hs ≤ arr.length →
    ∀ B : Int,
    (∀ k, inSub i k = true → k < hs → getE arr k ≤ B) →
    ∀ k, inSub i k = true → k < hs → getE (heapify arr hs i) k ≤ B := by
  intro arr hs i
  induction arr, hs, i using heapify.induct with
  | case1 arr hs i h ih =>
    intro hlen B hB k hk hkhs
    rw [heapify, if_pos h]
    rcases heapifyLargest_cases arr hs i with hL | ⟨hL, hLhs⟩
    · exact absurd hL h
    · set L := heapifyLargest arr hs i with hLdef
      have hihs : i < hs := by omega
      have hiltL : i < L := by rcases hL with h2 | h2 <;> omega
      have hiL : inSub i L = true := inSub_child i i _ (inSub_refl i) hL
      have hBswap : ∀ m, inSub L m = true → m < hs →
          getE (listSwap arr i L) m ≤ B := by
        intro m hm hmhs
        by_cases hmL : m = L
        · subst hmL
          rw [getE_listSwap_right _ _ _ (by omega)]
          exact hB i (inSub_refl i) hihs
        · have hmi : m ≠ i := by
            have := inSub_ge m L hm
            omega
          rw [getE_listSwap_other _ _ _ _ hmi hmL]
          exact hB m (inSub_trans m L i hiL hm) hmhs
      by_cases hLk : inSub L k = true
      · exact ih (by rw [length_listSwap]; exact hlen) B hBswap k hLk hkhs
      · have hLk' : inSub L k = false := by
          cases hb : inSub L k
          · rfl
          · exact absurd hb hLk
        rw [heapify_frame _ _ _ k hLk']
        by_cases hki : k = i
        · subst hki
          rw [getE_listSwap_left _ _ _ (by omega) (by omega)]
          exact hB L hiL hLhs
        · have hkL : k ≠ L := by
            intro he
            rw [he, inSub_refl] at hLk'
            simp at hLk'
          rw [getE_listSwap_other _ _ _ _ hki hkL]
          exact hB k hk hkhs
  | case2 arr hs i h =>
    intro hlen B hB k hk hkhs
    rw [heapify, if_neg h]
    exact hB k hk hkhs

theorem heapify_subHeap : ∀ (arr : List Int) (hs i : Nat), hs ≤ arr.length →
    subHeap arr hs (2 * i + 1) → subHeap arr hs (2 * i + 2) →
    subHeap (heapify arr hs i) hs i := by
  intro arr hs i
  induction arr, hs, i using heapify.induct with
  | case2 arr hs i h =>
    intro hlen hsub1 hsub2
    rw [heapify, if_neg h]
    have hLi : heapifyLargest arr hs i = i := by
      by_contra hc
      exact h hc
    have hge := heapifyLargest_ge arr hs i
    rw [hLi] at hge
    rw [subHeap]
    exact ⟨fun hc => ⟨hge.2.1 hc, hsub1⟩, fun hc => ⟨hge.2.2 hc, hsub2⟩⟩
  | case1 arr hs i h ih =>
    intro hlen hsub1 hsub2
    rw [heapify, if_pos h]
    rcases heapifyLargest_cases arr hs i with hL | ⟨hL, hLhs⟩
    · exact absurd hL h
    · set L := heapifyLargest arr hs i with hLdef
      have hge := heapifyLargest_ge arr hs i
      rw [← hLdef] at hge
      have hiltL : i < L := by rcases hL with h2 | h2 <;> omega
      have hihs : i < hs := by omega
      have hiL : inSub i L = true := inSub_child i i _ (inSub_refl i) hL
      have hsubL : subHeap arr hs L := by
        rcases hL with h2 | h2 <;> rw [h2] <;> assumption
      have hchildL : ∀ c, (c = 2 * L + 1 ∨ c = 2 * L + 2) →
          subHeap (listSwap arr i L) hs c := by
        intro c hc
        by_cases hchs : c < hs
        · have hsc : subHeap arr hs c := by
            rw [subHeap] at hsubL
            rcases hc with h2 | h2
            · rw [h2]
              exact (hsubL.1 (by omega)).2
            · rw [h2]
              exact (hsubL.2 (by omega)).2
          refine subHeap_congr arr _ hs c (fun m hm hmn => ?_) hsc
          have hmge : c ≤ m := inSub_ge m c hm
          exact getE_listSwap_other _ _ _ _ (by omega) (by omega)
        · exact subHeap_leaf _ hs c (by omega)
      have ihres := ih (by rw [length_listSwap]; exact hlen)
        (hchildL _ (Or.inl rfl)) (hchildL _ (Or.inr rfl))
      have hLi_false : inSub L i = false := inSub_false_of_lt L i hiltL
      have hresi : getE (heapify (listSwap arr i L) hs L) i = getE arr L := by
        rw [heapify_frame _ _ _ i hLi_false,
          getE_listSwap_left _ _ _ (by omega) (by omega)]
      have hresL : getE (heapify (listSwap arr i L) hs L) L ≤ getE arr L := by
        refine heapify_bound _ hs L (by rw [length_listSwap]; exact hlen)
          (getE arr L) ?_ L (inSub_refl L) hLhs
        intro m hm hmhs
        by_cases hmL : m = L
        · subst hmL
          rw [getE_listSwap_right _ _ _ (by omega)]
          exact hge.1
        · have hmge : L ≤ m := inSub_ge m L hm
          rw [getE_listSwap_other _ _ _ _ (by omega) hmL]
          exact subHeap_root_max m L arr hs hsubL hm hmhs
      have hside : ∀ ch, (ch = 2 * i + 1 ∨ ch = 2 * i + 2) → ch < hs →
          getE (heapify (listSwap arr i L) hs L) ch ≤
            getE (heapify (listSwap arr i L) hs L) i ∧
          subHeap (heapify (listSwap arr i L) hs L) hs ch := by
        intro ch hch hchhs
        by_cases hchL : ch = L
        · subst hchL
          rw [hresi]
          exact ⟨hresL, ihres⟩
        · have hLch_false : inSub L ch = false :=
            inSub_sibling_false i L ch hL hch (fun he => hchL he.symm)
        
          have hchL_false : inSub ch L = false :=
            inSub_sibling_false i ch L hch hL hchL
          have hcho : subHeap arr hs ch := by
            rcases hch with h2 | h2 <;> rw [h2] <;> assumption
          have hagree : ∀ m, inSub ch m = true → m < hs →
              getE (heapify (listSwap arr i L) hs L) m = getE arr m := by
            intro m hm hmhs
            have hmge : ch ≤ m := inSub_ge m ch hm
            have hmL : m ≠ L := by
              intro he
              rw [he] at hm
              rw [hm] at hchL_false
              simp at hchL_false
            rw [heapify_frame _ _ _ m (inSub_disjoint L ch m hLch_false hchL_false hm),
              getE_listSwap_other _ _ _ _ (by omega) hmL]
          have hval : getE (heapify (listSwap arr i L) hs L) ch = getE arr ch :=
            hagree ch (inSub_refl ch) hchhs
          refine ⟨?_, subHeap_congr arr _ hs ch hagree hcho⟩
          rw [hval, hresi]
          rcases hch with h2 | h2
          · rw [h2]
            exact hge.2.1 (by omega)
          · rw [h2]
            exact hge.2.2 (by omega)
      rw [subHeap]
      exact ⟨fun hc => hside (2 * i + 1) (Or.inl rfl) hc,
        fun hc => hside (2 * i + 2) (Or.inr rfl) hc⟩

theorem buildLoop_spec : ∀ (arr : List Int) (size : Nat) (i : Int),
    size ≤ arr.length → i < (size : Int) →
    (∀ j : Nat, i < (j : Int) → subHeap arr size j) →
    (buildLoop arr size i).length = arr.length ∧
    (buildLoop arr size i).Perm arr ∧
    (∀ j : Nat, subHeap (buildLoop arr size i) size j) := by
  intro arr size i
  induction arr, size, i using buildLoop.induct with
  | case1 arr size i h ih =>
    intro hlen hisize hinv
    rw [buildLoop, dif_pos h]
    have h1 : subHeap (heapify arr size i.toNat) size i.toNat :=
      heapify_subHeap arr size i.toNat hlen (hinv _ (by omega)) (hinv _ (by omega))
    have hinv' : ∀ j : Nat, i - 1 < (j : Int) →
        subHeap (heapify arr size i.toNat) size j := by
      intro j hj
      by_cases hji : j = i.toNat
      · rw [hji]
        exact h1
      · have hjgt : i < (j : Int) := by omega
        by_cases hsub : inSub i.toNat j = true
        · exact subHeap_at j i.toNat _ size h1 hsub
        · refine subHeap_congr arr _ size j (fun m hm hmn => ?_) (hinv j hjgt)
          refine heapify_frame arr size i.toNat m ?_
          cases hb : inSub i.toNat m
          · rfl
          · exfalso
            rcases inSub_linear m i.toNat j hb hm with h2 | h2
            · rw [h2] at hsub
              exact hsub rfl
            · have := inSub_ge i.toNat j h2
              omega
    obtain ⟨r1, r2, r3⟩ := ih (by rw [heapify_length]; exact hlen) (by omega) hinv'
    exact ⟨r1.trans (heapify_length _ _ _), r2.trans (heapify_perm _ _ _ hlen), r3⟩
  | case2 arr size i h =>
    intro hlen hisize hinv
    rw [buildLoop, dif_neg h]
    exact ⟨rfl, .refl _, fun j => hinv j (by omega)⟩

theorem build_max_heap_spec (arr : List Int) (size : Nat)
    (hlen : size ≤ arr.length) :
    (build_max_heap arr size).length = arr.length ∧
    (build_max_heap arr size).Perm arr ∧
    (∀ j : Nat, subHeap (build_max_heap arr size) size j) := by
  rw [build_max_heap]
  refine buildLoop_spec arr size _ hlen (by omega) ?_
  intro j hj
  refine subHeap_leaf arr size j ?_
  omega

theorem extractLoop_spec : ∀ (arr : List Int) (i : Int),
    i < (arr.length : Int) →
    subHeap arr (i + 1).toNat 0 →
    (∀ a b : Nat, i < (a : Int) → a ≤ b → b < arr.length →
      getE arr a ≤ getE arr b) →
    (∀ k m : Nat, (k : Int) ≤ i → i < (m : Int) → m < arr.length →
      getE arr k ≤ getE arr m) →
    (extractLoop arr i).length = arr.length ∧
    (extractLoop arr i).Perm arr ∧
    (∀ a b : Nat, a ≤ b → b < arr.length →
      getE (extractLoop arr i) a ≤ getE (extractLoop arr i) b) := by
  intro arr i
  induction arr, i using extractLoop.induct with
  | case1 arr i h ih =>
    intro hilen hheap htail hcross
    rw [extractLoop, dif_pos h]
    have hitn : i.toNat < arr.length := by omega
    have h0len : 0 < arr.length := by omega
    have hswlen : (listSwap arr 0 i.toNat).length = arr.length :=
      length_listSwap _ _ _
    have hsw_at_i : getE (listSwap arr 0 i.toNat) i.toNat = getE arr 0 :=
      getE_listSwap_right _ _ _ hitn
    have hsw_other : ∀ m : Nat, m ≠ 0 → m ≠ i.toNat →
        getE (listSwap arr 0 i.toNat) m = getE arr m := fun m h1 h2 =>
      getE_listSwap_other _ _ _ _ h1 h2
    have hroot_max : ∀ m : Nat, m < (i + 1).toNat → getE arr m ≤ getE arr 0 :=
      fun m hm => subHeap_root_max m 0 arr _ hheap (inSub_zero m) hm
    have hchild : ∀ c : Nat, (c = 2 * 0 + 1 ∨ c = 2 * 0 + 2) →
        subHeap (listSwap arr 0 i.toNat) i.toNat c := by
      intro c hc
      have hc12 : c = 1 ∨ c = 2 := by omega
      by_cases hcin : c < (i + 1).toNat
      · have hsc : subHeap arr (i + 1).toNat c := by
          rw [subHeap] at hheap
          rcases hc with h2 | h2
          · rw [h2]
            exact (hheap.1 (by omega)).2
          · rw [h2]
            exact (hheap.2 (by omega)).2
        refine subHeap_congr arr _ i.toNat c (fun m hm hmn => ?_)
          (subHeap_mono arr _ i.toNat c (by omega) hsc)
        have := inSub_ge m c hm
        exact hsw_other m (by omega) (by omega)
      · exact subHeap_leaf _ i.toNat c (by omega)
    have hheap' : subHeap (heapify (listSwap arr 0 i.toNat) i.toNat 0)
        (i - 1 + 1).toNat 0 := by
      have := heapify_subHeap (listSwap arr 0 i.toNat) i.toNat 0
        (by rw [hswlen]; omega) (hchild _ (Or.inl rfl)) (hchild _ (Or.inr rfl))
      have he : (i - 1 + 1).toNat = i.toNat := by omega
      rw [he]
      exact this
    have ha2len : (heapify (listSwap arr 0 i.toNat) i.toNat 0).length
        = arr.length := by
      rw [heapify_length, hswlen]
    have ha2_ge : ∀ m : Nat, i.toNat ≤ m →
        getE (heapify (listSwap arr 0 i.toNat) i.toNat 0) m
          = getE (listSwap arr 0 i.toNat) m := fun m hm =>
      heapify_untouched_ge _ _ _ m hm
    have ha2_bound : ∀ k : Nat, k < i.toNat →
        getE (heapify (listSwap arr 0 i.toNat) i.toNat 0) k ≤ getE arr 0 := by
      intro k hk
      refine heapify_bound _ i.toNat 0 (by rw [hswlen]; omega) (getE arr 0)
        ?_ k (inSub_zero k) hk
      intro m hm hmhs
      by_cases hm0 : m = 0
      · rw [hm0, getE_listSwap_left _ _ _ h0len hitn]
        exact hroot_max i.toNat (by omega)
      · rw [hsw_other m hm0 (by omega)]
        exact hroot_max m (by omega)
    have htail' : ∀ a b : Nat, i - 1 < (a : Int) → a ≤ b → b < arr.length →
        getE (heapify (listSwap arr 0 i.toNat) i.toNat 0) a ≤
          getE (heapify (listSwap arr 0 i.toNat) i.toNat 0) b := by
      intro a b hab1 hab2 hab3
      have haI : i.toNat ≤ a := by omega
      have hbI : i.toNat ≤ b := by omega
      rw [ha2_ge a haI, ha2_ge b hbI]
      by_cases haEq : a = i.toNat
      · subst haEq
        by_cases hbEq : b = i.toNat
        · subst hbEq
          exact le_refl _
        · rw [hsw_at_i, hsw_other b (by omega) hbEq]
          exact hcross 0 b (by omega) (by omega) hab3
      · rw [hsw_other a (by omega) haEq, hsw_other b (by omega) (by omega)]
        exact htail a b (by omega) hab2 hab3
    have hcross' : ∀ k m : Nat, (k : Int) ≤ i - 1 → i - 1 < (m : Int) →
        m < arr.length →
        getE (heapify (listSwap arr 0 i.toNat) i.toNat 0) k ≤
          getE (heapify (listSwap arr 0 i.toNat) i.toNat 0) m := by
      intro k m hk hm hmlen
      have hkb := ha2_bound k (by omega)
      have hmI : i.toNat ≤ m := by omega
      rw [ha2_ge m hmI]
      by_cases hmEq : m = i.toNat
      · rw [hmEq, hsw_at_i]
        exact hkb
      · rw [hsw_other m (by omega) hmEq]
        exact hkb.trans (hcross 0 m (by omega) (by omega) hmlen)
    obtain ⟨r1, r2, r3⟩ := ih (by rw [ha2len]; omega) hheap'
      (fun a b h1 h2 h3 => htail' a b h1 h2 (by rw [ha2len] at h3; exact h3))
      (fun k m h1 h2 h3 => hcross' k m h1 h2 (by rw [ha2len] at h3; exact h3))
    refine ⟨r1.trans ha2len, r2.trans ?_, ?_⟩
    · exact (heapify_perm _ _ _ (by rw [hswlen]; omega)).trans
        (listSwap_perm arr 0 i.toNat h0len hitn)
    · intro a b hab hb
      exact r3 a b hab (by rw [ha2len]; exact hb)
  | case2 arr i h =>
    intro hilen hheap htail hcross
    rw [extractLoop, dif_neg h]
    refine ⟨rfl, .refl _, ?_⟩
    intro a b hab hb
    by_cases ha : i < (a : Int)
    · exact htail a b ha hab hb
    · have ha0 : a = 0 := by omega
      have hi0 : i = 0 := by omega
      by_cases hb0 : b = 0
    
      · rw [ha0, hb0]
      · rw [ha0]
        exact hcross 0 b (by omega) (by omega) hb

theorem heap_sort_spec (arr : List Int) :
    (heap_sort arr).length = arr.length ∧
    (heap_sort arr).Perm arr ∧
    (∀ a b : Nat, a ≤ b → b < arr.length →
      getE (heap_sort arr) a ≤ getE (heap_sort arr) b) := by
  rw [heap_sort]
  by_cases h : arr.length ≤ 1
  · rw [if_pos h]
    refine ⟨rfl, .refl _, ?_⟩
    intro a b hab hb
    have : a = b := by omega
    rw [this]
  · rw [if_neg h]
    obtain ⟨b1, b2, b3⟩ := build_max_heap_spec arr arr.length le_rfl
    have hco : ((arr.length : Int) - 1 + 1).toNat = arr.length := by omega
    obtain ⟨r1, r2, r3⟩ := extractLoop_spec (build_max_heap arr arr.length)
      ((arr.length : Int) - 1)
      (by rw [b1]; omega)
      (by rw [hco]; exact b3 0)
      (by intro a b h1 h2 h3; rw [b1] at h3; exfalso; omega)
      (by intro k m h1 h2 h3; rw [b1] at h3; exfalso; omega)
    refine ⟨r1.trans b1, r2.trans b2, ?_⟩
    intro a b hab hb
    exact r3 a b hab (by rw [b1]; exact hb)

/-!
## Counting sort and radix sort (`counting_sort.c`, `radix_sort.c`)

Both sorts share one counting pass: a histogram over keys `0..R-1`, a
prefix-sum loop, and a right-to-left placement scan.  The count array is
embedded as a function `Nat → Nat`; element keys are `Nat` (`value` for
counting sort, `(value / exp) % 10` for a radix digit pass).  The element
type is generic with `val`/`key` projections so that the index-tagged
stability statements instantiate the same definitions.
-/

/-- Generic `arr[i]` (cf. `getE` for `Int` arrays). -/
def getA {α : Type} [Inhabited α] (l : List α) (k : Nat) : α := l.getD k default

/-- `count[d] = v`, the embedded store to the count array. -/
def setF (c : Nat → Nat) (d v : Nat) : Nat → Nat := fun e => if e = d then v else c e

/-- Histogram loop (radix_sort.c:46-49, counting_sort.c:49-51). -/
def histLoop {α : Type} (key : α → Nat) : List α → (Nat → Nat) → (Nat → Nat)
  | [], c => c
  | x :: xs, c => histLoop key xs (setF c (key x) (c (key x) + 1))

/-- Prefix-sum loop (radix_sort.c:52-54, counting_sort.c:54-56):
`for (i = 1; i < R; i++) count[i] += count[i-1]`. -/
def prefLoop (c : Nat → Nat) (i R : Nat) : Nat → Nat :=
  if i < R then prefLoop (setF c i (c i + c (i - 1))) (i + 1) R else c
termination_by R - i

/-- Placement loop (radix_sort.c:57-61, counting_sort.c:67-70): scan the
source from the last index down, decrement the key's cumulative count and
write the element at the decremented slot. -/
def placeLoop {α : Type} [Inhabited α] (key : α → Nat) (arr : List α) (i : Int)
    (c : Nat → Nat) (out : List α) : List α :=
  if 0 ≤ i then
    placeLoop key arr (i - 1)
      (setF c (key (getA arr i.toNat)) (c (key (getA arr i.toNat)) - 1))
      (out.set (c (key (getA arr i.toNat)) - 1) (getA arr i.toNat))
  else
    out
termination_by (i + 1).toNat

/-- One full counting pass over keys `0..R-1`: the shared body of
`counting_sort` (R = max+1, key = value) and `counting_sort_by_digit`
(R = 10, key = current digit); the output buffer then replaces the input
(`memcpy` back). -/
def countPass {α : Type} [Inhabited α] (key : α → Nat) (R : Nat)
    (arr : List α) : List α :=
  placeLoop key arr ((arr.length : Int) - 1)
    (prefLoop (histLoop key arr (fun _ => 0)) 1 R)
    (List.replicate arr.length default)

/-- Number of elements with key `d`. -/
def cntF {α : Type} (key : α → Nat) (arr : List α) (d : Nat) : Nat :=
  (arr.filter (fun x => decide (key x = d))).length

/-- Cumulative sums of an abstract count function. -/
def cumF (cnt : Nat → Nat) : Nat → Nat
  | 0 => cnt 0
  | d + 1 => cumF cnt d + cnt (d + 1)

/-- Number of elements with key `d` among indices `≥ m`. -/
def sufEq {α : Type} (key : α → Nat) (arr : List α) (m d : Nat) : Nat :=
  ((arr.drop m).filter (fun x => decide (key x = d))).length

/-- The output slot the pass gives to input index `j`: the number of
strictly smaller keys plus the number of equal keys at earlier indices —
i.e. the stable rank. -/
def rankOf {α : Type} [Inhabited α] (key : α → Nat) (arr : List α) (j : Nat) :
    Nat :=
  (arr.filter (fun x => decide (key x < key (getA arr j)))).length +
  ((arr.take j).filter (fun x => decide (key x = key (getA arr j)))).length

theorem cntF_cons {α : Type} (key : α → Nat) (x : α) (xs : List α) (d : Nat) :
    cntF key (x :: xs) d = (if key x = d then 1 else 0) + cntF key xs d := by
  simp only [cntF, List.filter_cons]
  by_cases h : key x = d
  · simp [h]
    omega
  · simp [h]

theorem histLoop_spec {α : Type} (key : α → Nat) :
    ∀ (l : List α) (c : Nat → Nat) (d : Nat),
    histLoop key l c d = c d + cntF key l d := by
  intro l
  induction l with
  | nil =>
    intro c d
    simp [histLoop, cntF]
  | cons x xs ih =>
    intro c d
    rw [histLoop, ih, cntF_cons]
    by_cases hd : d = key x
    · simp [setF, hd]
      omega
    · have h2 : ¬ key x = d := fun he => hd he.symm
      simp [setF, hd, h2]

theorem prefLoop_spec :
    ∀ (c : Nat → Nat) (i R : Nat), ∀ cnt : Nat → Nat, 1 ≤ i →
    (∀ d, d < i → c d = cumF cnt d) → (∀ d, i ≤ d → c d = cnt d) →
    ∀ d, prefLoop c i R d = if d < max i R then cumF cnt d else cnt d := by
  intro c i R
  induction c, i, R using prefLoop.induct with
  | case1 c i R h ih =>
    intro cnt h1 hlow hhigh d
    rw [prefLoop, if_pos h]
    have hcum : cumF cnt i = cumF cnt (i - 1) + cnt i := by
      conv_lhs => rw [show i = (i - 1) + 1 by omega]
      rw [cumF]
      congr 2 <;> omega
    have hlow' : ∀ e, e < i + 1 → setF c i (c i + c (i - 1)) e = cumF cnt e := by
      intro e he
      by_cases hei : e = i
      · rw [setF]
        simp only [if_pos hei]
        rw [hei, hhigh i le_rfl, hlow (i - 1) (by omega), hcum]
        omega
      · rw [setF]
        simp only [if_neg hei]
        exact hlow e (by omega)
    have hhigh' : ∀ e, i + 1 ≤ e → setF c i (c i + c (i - 1)) e = cnt e := by
      intro e he
      rw [setF]
      simp only [if_neg (by omega : ¬ e = i)]
      exact hhigh e (by omega)
    have := ih cnt (by omega) hlow' hhigh' d
    rw [this]
    have hmax : max (i + 1) R = max i R := by omega
    rw [hmax]
  | case2 c i R h =>
    intro cnt h1 hlow hhigh d
    rw [prefLoop, if_neg h]
    by_cases hd : d < max i R
    · rw [if_pos hd]
      exact hlow d (by omega)
    · rw [if_neg hd]
      exact hhigh d (by omega)

theorem getA_eq_getElem {α : Type} [Inhabited α] (l : List α) (k : Nat)
    (h : k < l.length) : getA l k = l[k] := by
  simp [getA, List.getD, List.getElem?_eq_getElem h]

theorem drop_cons_getA {α : Type} [Inhabited α] (l : List α) (m : Nat)
    (h : m < l.length) : l.drop m = getA l m :: l.drop (m + 1) := by
  rw [getA_eq_getElem l m h]
  exact List.drop_eq_getElem_cons h

theorem filter_length_mono {α : Type} (p q : α → Bool) :
    ∀ l : List α, (∀ x ∈ l, p x = true → q x = true) →
    (l.filter p).length ≤ (l.filter q).length := by
  intro l
  induction l with
  | nil => intro _; simp
  | cons a t ih =>
    intro h
    have ht := ih (fun x hx => h x (List.mem_cons_of_mem a hx))
    rw [List.filter_cons, List.filter_cons]
    by_cases hp : p a = true
    · rw [if_pos hp, if_pos (h a (List.mem_cons_self a t) hp)]
      simpa using ht
    · rw [if_neg hp]
      split
      · simp
        omega
      · exact ht

theorem filter_le_succ_split {α : Type} (key : α → Nat) (d : Nat) :
    ∀ l : List α,
    (l.filter (fun x => decide (key x ≤ d + 1))).length =
      (l.filter (fun x => decide (key x ≤ d))).length + cntF key l (d + 1) := by
  intro l
  induction l with
  | nil => simp [cntF]
  | cons a t ih =>
    rw [cntF_cons]
    rw [List.filter_cons, List.filter_cons]
    unfold cntF at ih ⊢
    by_cases h1 : key a ≤ d + 1 <;> by_cases h2 : key a ≤ d <;>
      by_cases h3 : key a = d + 1 <;>
      simp [h1, h2, h3] <;> omega

theorem cumF_cntF_eq {α : Type} (key : α → Nat) (arr : List α) :
    ∀ d : Nat, cumF (cntF key arr) d =
      (arr.filter (fun x => decide (key x ≤ d))).length := by
  intro d
  induction d with
  | zero =>
    rw [cumF, cntF]
    congr 1
    apply List.filter_congr
    intro x _
    simp [Nat.le_zero]
  | succ d ih =>
    rw [cumF, ih, filter_le_succ_split key d arr]

theorem filter_lt_eq_split {α : Type} (key : α → Nat) (d : Nat) :
    ∀ l : List α,
    (l.filter (fun x => decide (key x ≤ d))).length =
      (l.filter (fun x => decide (key x < d))).length + cntF key l d := by
  intro l
  induction l with
  | nil => simp [cntF]
  | cons a t ih =>
    rw [cntF_cons, List.filter_cons, List.filter_cons]
    unfold cntF at ih ⊢
    by_cases h1 : key a ≤ d <;> by_cases h2 : key a < d <;>
      by_cases h3 : key a = d <;>
      simp [h1, h2, h3] <;> omega

theorem sufEq_cons {α : Type} [Inhabited α] (key : α → Nat) (arr : List α)
    (m d : Nat) (h : m < arr.length) :
    sufEq key arr m d =
      (if key (getA arr m) = d then 1 else 0) + sufEq key arr (m + 1) d := by
  rw [sufEq, drop_cons_getA arr m h, List.filter_cons, sufEq]
  by_cases hk : key (getA arr m) = d
  · simp [hk]
    omega
  · simp [hk]

theorem sufEq_le_cnt {α : Type} (key : α → Nat) (arr : List α) (m d : Nat) :
    sufEq key arr m d ≤ cntF key arr d :=
  ((List.drop_sublist m arr).filter _).length_le

theorem cnt_split_at {α : Type} (key : α → Nat) (arr : List α) (j d : Nat) :
    cntF key arr d =
      ((arr.take j).filter (fun x => decide (key x = d))).length +
        sufEq key arr j d := by
  rw [cntF, sufEq]
  conv_lhs => rw [← List.take_append_drop j arr]
  rw [List.filter_append, List.length_append]

theorem rank_lt_length {α : Type} [Inhabited α] (key : α → Nat) (arr : List α)
    (j : Nat) (hj : j < arr.length) : rankOf key arr j < arr.length := by
  have h1 := cnt_split_at key arr j (key (getA arr j))
  have h2 : 1 ≤ sufEq key arr j (key (getA arr j)) := by
    rw [sufEq_cons key arr j _ hj]
    simp
  have h3 := filter_lt_eq_split key (key (getA arr j)) arr
  have h4 : (arr.filter (fun x => decide (key x ≤ key (getA arr j)))).length ≤
      arr.length := List.length_filter_le _ arr
  rw [rankOf]
  omega

theorem rank_lt_rank {α : Type} [Inhabited α] (key : α → Nat) (arr : List α)
    (j j' : Nat) (hj : j < arr.length) (hj' : j' < arr.length)
    (h : key (getA arr j) < key (getA arr j') ∨
      (key (getA arr j) = key (getA arr j') ∧ j < j')) :
    rankOf key arr j < rankOf key arr j' := by
  rcases h with h | ⟨hk, hjj⟩
  · have h1 := cnt_split_at key arr j (key (getA arr j))
    have h2 : 1 ≤ sufEq key arr j (key (getA arr j)) := by
      rw [sufEq_cons key arr j _ hj]
      simp
    have h3 := filter_lt_eq_split key (key (getA arr j)) arr
    have h4 : (arr.filter (fun x => decide (key x ≤ key (getA arr j)))).length ≤
        (arr.filter (fun x => decide (key x < key (getA arr j')))).length := by
      refine filter_length_mono _ _ arr ?_
      intro x _ hx
      simp at hx ⊢
      omega
    have h5 : ((arr.take j').filter
        (fun x => decide (key x = key (getA arr j')))).length ≥ 0 := Nat.zero_le _
    rw [rankOf, rankOf]
    omega
  · rw [rankOf, rankOf]
    simp only [← hk]
    have hsplit : arr.take j' = arr.take j ++ (arr.drop j).take (j' - j) := by
      conv_lhs => rw [show j' = j + (j' - j) by omega]
      exact List.take_add arr j (j' - j)
    rw [hsplit, List.filter_append, List.length_append]
    have hseg : (arr.drop j).take (j' - j) =
        getA arr j :: (arr.drop (j + 1)).take (j' - j - 1) := by
      rw [drop_cons_getA arr j hj, show j' - j = (j' - j - 1) + 1 by omega]
      rfl
    have hseg1 : 1 ≤ (((arr.drop j).take (j' - j)).filter
        (fun x => decide (key x = key (getA arr j)))).length := by
      rw [hseg, List.filter_cons_of_pos (by simp)]
      simp
    omega

theorem getA_set_self {α : Type} [Inhabited α] (l : List α) (i : Nat) (x : α)
    (h : i < l.length) : getA (l.set i x) i = x := by
  simp [getA, List.getD, List.getElem?_set_self', h]

theorem getA_set_ne {α : Type} [Inhabited α] (l : List α) (i k : Nat) (x : α)
    (h : k ≠ i) : getA (l.set i x) k = getA l k := by
  simp [getA, List.getD, List.getElem?_set_ne (by omega : i ≠ k)]

theorem getA_mem {α : Type} [Inhabited α] (l : List α) (k : Nat)
    (h : k < l.length) : getA l k ∈ l := by
  rw [getA_eq_getElem l k h]
  exact List.getElem_mem h

theorem placeLoop_spec {α : Type} [Inhabited α] (key : α → Nat) (R : Nat)
    (arr : List α) (hR : 1 ≤ R) (hkey : ∀ x ∈ arr, key x < R) :
    ∀ (i : Int) (c : Nat → Nat) (out : List α),
    out.length = arr.length → i < (arr.length : Int) →
    (∀ d, d < R → c d = cumF (cntF key arr) d - sufEq key arr (i + 1).toNat d) →
    (∀ j : Nat, i < (j : Int) → j < arr.length →
      getA out (rankOf key arr j) = getA arr j) →
    (placeLoop key arr i c out).length = arr.length ∧
    (∀ j : Nat, j < arr.length →
      getA (placeLoop key arr i c out) (rankOf key arr j) = getA arr j) := by
  intro i c out
  induction i, c, out using placeLoop.induct key arr with
  | case1 i c out h ih =>
    intro hlen hin hc hout
    rw [placeLoop, if_pos h]
    have hiN : i.toNat < arr.length := by omega
    set x := getA arr i.toNat with hx
    set k := key x with hk
    have hkR : k < R := hkey x (getA_mem arr i.toNat hiN)
    have hi1 : (i + 1).toNat = i.toNat + 1 := by omega
    have hsufc := sufEq_cons key arr i.toNat k hiN
    rw [if_pos (by rw [← hx, ← hk] : key (getA arr i.toNat) = k)] at hsufc
    have hcum := cumF_cntF_eq key arr k
    have hlts := filter_lt_eq_split key k arr
    have hcsp := cnt_split_at key arr i.toNat k
    have hck := hc k hkR
    rw [hi1] at hck
    have hsle : sufEq key arr (i.toNat + 1) k ≤ cntF key arr k := by
      have := sufEq_le_cnt key arr (i.toNat + 1) k
      exact this
    have hpos : c k - 1 = rankOf key arr i.toNat := by
      rw [rankOf, ← hx, ← hk]
      omega
    have hprank : rankOf key arr i.toNat < arr.length :=
      rank_lt_length key arr i.toNat hiN
    have hc' : ∀ d, d < R →
        setF c k (c k - 1) d =
          cumF (cntF key arr) d - sufEq key arr (i - 1 + 1).toNat d := by
      intro d hd
      have hi2 : (i - 1 + 1).toNat = i.toNat := by omega
      rw [hi2, setF]
      by_cases hdk : d = k
      · rw [if_pos hdk, hdk, hsufc]
        omega
      · rw [if_neg hdk]
        have hsufd := sufEq_cons key arr i.toNat d hiN
        rw [if_neg (by rw [← hx]; exact fun he => hdk he.symm)] at hsufd
        have := hc d hd
        rw [hi1] at this
        omega
    have hout' : ∀ j : Nat, i - 1 < (j : Int) → j < arr.length →
        getA (out.set (c k - 1) x) (rankOf key arr j) = getA arr j := by
      intro j hj1 hj2
      by_cases hji : j = i.toNat
      · rw [hji, ← hpos]
        exact getA_set_self out (c k - 1) x (by rw [hlen, hpos]; exact hprank)
      · have hjgt : i < (j : Int) := by omega
        have hne : rankOf key arr j ≠ rankOf key arr i.toNat := by
          rcases Nat.lt_trichotomy (key (getA arr j)) k with hlt | heq | hgt
          · have := rank_lt_rank key arr j i.toNat hj2 hiN (Or.inl hlt)
            omega
          · have := rank_lt_rank key arr i.toNat j hiN hj2
              (Or.inr ⟨by rw [← hx, ← hk, heq], by omega⟩)
            omega
          · have := rank_lt_rank key arr i.toNat j hiN hj2 (Or.inl hgt)
            omega
        rw [hpos, getA_set_ne out _ _ x hne]
        exact hout j hjgt hj2
    obtain ⟨r1, r2⟩ := ih (by rw [List.length_set]; exact hlen) (by omega)
      hc' hout'
    exact ⟨r1, r2⟩
  | case2 i c out h =>
    intro hlen hin hc hout
    rw [placeLoop, if_neg h]
    exact ⟨hlen, fun j hj => hout j (by omega) hj⟩

theorem countPass_writes {α : Type} [Inhabited α] (key : α → Nat) (R : Nat)
    (arr : List α) (hR : 1 ≤ R) (hkey : ∀ x ∈ arr, key x < R) :
    (countPass key R arr).length = arr.length ∧
    (∀ j : Nat, j < arr.length →
      getA (countPass key R arr) (rankOf key arr j) = getA arr j) := by
  rw [countPass]
  refine placeLoop_spec key R arr hR hkey _ _ _ (List.length_replicate _ _)
    (by omega) ?_ ?_
  · intro d hd
    have hp := prefLoop_spec (histLoop key arr (fun _ => 0)) 1 R
      (cntF key arr) le_rfl ?_ ?_ d
    · rw [hp, if_pos (by omega)]
      have hsuf : sufEq key arr ((arr.length : Int) - 1 + 1).toNat d = 0 := by
        rw [sufEq, show ((arr.length : Int) - 1 + 1).toNat = arr.length by omega,
          List.drop_length]
        rfl
      rw [hsuf]
      omega
    · intro e he
      have he0 : e = 0 := by omega
      rw [he0, histLoop_spec, cumF]
      simp
    · intro e _
      rw [histLoop_spec]
      simp
  · intro j hj1 hj2
    exfalso
    omega

theorem rank_injOn {α : Type} [Inhabited α] (key : α → Nat) (arr : List α)
    (j j' : Nat) (hj : j < arr.length) (hj' : j' < arr.length)
    (hne : j ≠ j') : rankOf key arr j ≠ rankOf key arr j' := by
  rcases Nat.lt_trichotomy j j' with hlt | heq | hgt
  · rcases Nat.lt_trichotomy (key (getA arr j)) (key (getA arr j')) with h1 | h1 | h1
    · have := rank_lt_rank key arr j j' hj hj' (Or.inl h1)
      omega
    · have := rank_lt_rank key arr j j' hj hj' (Or.inr ⟨h1, hlt⟩)
      omega
    · have := rank_lt_rank key arr j' j hj' hj (Or.inl h1)
      omega
  · exact absurd heq hne
  · rcases Nat.lt_trichotomy (key (getA arr j)) (key (getA arr j')) with h1 | h1 | h1
    · have := rank_lt_rank key arr j j' hj hj' (Or.inl h1)
      omega
    · have := rank_lt_rank key arr j' j hj' hj (Or.inr ⟨h1.symm, hgt⟩)
      omega
    · have := rank_lt_rank key arr j' j hj' hj (Or.inl h1)
      omega

theorem rank_surj {α : Type} [Inhabited α] (key : α → Nat) (arr : List α)
    (m : Nat) (hm : m < arr.length) :
    ∃ j : Nat, j < arr.length ∧ rankOf key arr j = m := by
  set n := arr.length with hn
  have hbij : Function.Bijective
      (fun j : Fin n => (⟨rankOf key arr j.val,
        rank_lt_length key arr j.val j.isLt⟩ : Fin n)) := by
    rw [← Finite.injective_iff_bijective]
    intro a b hab
    by_contra hne
    exact rank_injOn key arr a.val b.val a.isLt b.isLt
      (fun he => hne (Fin.ext he)) (by simpa using congrArg Fin.val hab)
  obtain ⟨j, hj⟩ := hbij.2 ⟨m, hm⟩
  exact ⟨j.val, j.isLt, by simpa using congrArg Fin.val hj⟩

theorem eq_ofFn_getA {α : Type} [Inhabited α] (l : List α) (n : Nat)
    (h : l.length = n) : l = List.ofFn (fun m : Fin n => getA l m.val) := by
  apply List.ext_getElem
  · simp [h]
  · intro i h1 h2
    rw [List.getElem_ofFn]
    exact (getA_eq_getElem l i h1).symm

theorem countPass_perm {α : Type} [Inhabited α] (key : α → Nat) (R : Nat)
    (arr : List α) (hR : 1 ≤ R) (hkey : ∀ x ∈ arr, key x < R) :
    (countPass key R arr).Perm arr := by
  obtain ⟨hlen, hw⟩ := countPass_writes key R arr hR hkey
  set n := arr.length with hn
  set e : Equiv.Perm (Fin n) := Equiv.ofBijective
    (fun j : Fin n => (⟨rankOf key arr j.val,
      rank_lt_length key arr j.val j.isLt⟩ : Fin n)) (by
    rw [← Finite.injective_iff_bijective]
    intro a b hab
    by_contra hne
    exact rank_injOn key arr a.val b.val a.isLt b.isLt
      (fun he => hne (Fin.ext he)) (by simpa using congrArg Fin.val hab))
    with he
  have h1 : arr = List.ofFn ((fun m : Fin n => getA (countPass key R arr) m.val) ∘ e) := by
    have hfun : ((fun m : Fin n => getA (countPass key R arr) m.val) ∘ e) =
        (fun j : Fin n => getA arr j.val) := by
      funext j
      simp only [Function.comp_apply, he, Equiv.ofBijective_apply]
      exact hw j.val j.isLt
    rw [hfun]
    exact eq_ofFn_getA arr n rfl
  have h2 : countPass key R arr =
      List.ofFn (fun m : Fin n => getA (countPass key R arr) m.val) :=
    eq_ofFn_getA _ n hlen
  have hperm := Equiv.Perm.ofFn_comp_perm e
    (fun m : Fin n => getA (countPass key R arr) m.val)
  rw [← h1, ← h2] at hperm
  exact hperm.symm

theorem countPass_pairwise {α : Type} [Inhabited α] (key : α → Nat) (R : Nat)
    (arr : List α) (hR : 1 ≤ R) (hkey : ∀ x ∈ arr, key x < R)
    (Q : α → α → Prop) (hQ : arr.Pairwise Q) :
    (countPass key R arr).Pairwise
      (fun x y => key x < key y ∨ (key x = key y ∧ Q x y)) := by
  obtain ⟨hlen, hw⟩ := countPass_writes key R arr hR hkey
  rw [List.pairwise_iff_getElem]
  intro m m' hm hm' hmm
  obtain ⟨j, hj, hrj⟩ := rank_surj key arr m (by omega)
  obtain ⟨j', hj', hrj'⟩ := rank_surj key arr m' (by omega)
  have hvm : (countPass key R arr)[m] = getA arr j := by
    rw [← getA_eq_getElem _ _ hm, ← hrj]
    exact hw j hj
  have hvm' : (countPass key R arr)[m'] = getA arr j' := by
    rw [← getA_eq_getElem _ _ hm', ← hrj']
    exact hw j' hj'
  rw [hvm, hvm']
  rcases Nat.lt_trichotomy (key (getA arr j)) (key (getA arr j')) with h1 | h1 | h1
  · exact Or.inl h1
  · have hjj : j < j' := by
      rcases Nat.lt_trichotomy j j' with h2 | h2 | h2
      · exact h2
      · exfalso
        rw [h2] at hrj
        omega
      · exfalso
        have := rank_lt_rank key arr j' j hj' hj (Or.inr ⟨h1.symm, h2⟩)
        omega
    refine Or.inr ⟨h1, ?_⟩
    have := List.pairwise_iff_getElem.mp hQ j j' hj hj' hjj
    rw [getA_eq_getElem arr j hj, getA_eq_getElem arr j' hj']
    exact this
  · exfalso
    have := rank_lt_rank key arr j' j hj' hj (Or.inl h1)
    omega

theorem toNat_le_natAbs (a : Int) : a.toNat ≤ a.natAbs := by
  cases a with
  | ofNat n => simp [Int.toNat]
  | negSucc n => simp [Int.toNat]

/-- `find_max` (radix_sort.c:23-31, counting_sort.c:19-27): start from
`arr[0]`, scan `i = 1 .. size-1` keeping the largest value seen. -/
def find_max {α : Type} [Inhabited α] (val : α → Int) (arr : List α) : Int :=
  (arr.drop 1).foldl (fun m x => if m < val x then val x else m)
    (val (getA arr 0))

theorem foldl_max_spec {α : Type} (val : α → Int) :
    ∀ (l : List α) (m : Int),
    m ≤ l.foldl (fun a x => if a < val x then val x else a) m ∧
    ∀ x ∈ l, val x ≤ l.foldl (fun a x => if a < val x then val x else a) m := by
  intro l
  induction l with
  | nil => intro m; simp
  | cons y t ih =>
    intro m
    rw [List.foldl_cons]
    obtain ⟨h1, h2⟩ := ih (if m < val y then val y else m)
    constructor
    · refine le_trans ?_ h1
      split <;> omega
    · intro x hx
      rcases List.mem_cons.mp hx with rfl | hx
      · refine le_trans ?_ h1
        split <;> omega
      · exact h2 x hx

theorem find_max_ge {α : Type} [Inhabited α] (val : α → Int) (arr : List α) :
    ∀ x ∈ arr, val x ≤ find_max val arr := by
  intro x hx
  match arr, hx with
  | a :: rest, hx =>
    rw [find_max]
    obtain ⟨h1, h2⟩ := foldl_max_spec val rest (val (getA (a :: rest) 0))
    rcases List.mem_cons.mp hx with rfl | hx
    · simpa [getA] using h1
    · simpa using h2 x hx

/-- `counting_sort` (counting_sort.c:33-77): guard `size <= 1`, find the
maximum, then one counting pass keyed by the value itself over
`0..max` (count array of size `max + 1`). -/
def counting_sort (arr : List Int) : List Int :=
  if arr.length ≤ 1 then arr
  else countPass (fun v => v.toNat) ((find_max (fun v => v) arr + 1).toNat) arr

/-- `counting_sort_by_digit` (radix_sort.c:36-67): one counting pass keyed
by the digit `(value / exp) % 10` (C `/` and `%` are truncated division,
`Int.tdiv`/`Int.tmod`); generic in the element type via `val`. -/
def counting_sort_by_digit {α : Type} [Inhabited α] (val : α → Int)
    (arr : List α) (exp : Int) : List α :=
  countPass (fun x => (((val x).tdiv exp).tmod 10).toNat) 10 arr

theorem tdiv_mul_ten_toNat_lt (max exp : Int) (h : 0 < max.tdiv exp) :
    (max.tdiv (exp * 10)).toNat < (max.tdiv exp).toNat := by
  have h1 : (max.tdiv (exp * 10)).natAbs = max.natAbs / (exp.natAbs * 10) := by
    rw [Int.natAbs_tdiv, Int.natAbs_mul]
    rfl
  have h2 : (max.tdiv exp).natAbs = max.natAbs / exp.natAbs := Int.natAbs_tdiv _ _
  have h3 : max.natAbs / (exp.natAbs * 10) = (max.natAbs / exp.natAbs) / 10 :=
    (Nat.div_div_eq_div_mul _ _ _).symm
  have h4 : (max.tdiv exp).toNat = (max.tdiv exp).natAbs := by
    have := Int.toNat_of_nonneg (le_of_lt h)
    have := Int.natAbs_of_nonneg (le_of_lt h)
    omega
  have h5 := toNat_le_natAbs (max.tdiv (exp * 10))
  have h6 : 0 < (max.tdiv exp).toNat := by omega
  have h7 : (max.natAbs / exp.natAbs) / 10 < max.natAbs / exp.natAbs := by
    refine Nat.div_lt_self ?_ (by omega)
    omega
  omega

/-- The digit loop of `radix_sort` (radix_sort.c:81-83):
`for (exp = 1; max / exp > 0; exp *= RADIX)`. -/
def radixLoop {α : Type} [Inhabited α] (val : α → Int) (arr : List α)
    (max exp : Int) : List α :=
  if 0 < max.tdiv exp then
    radixLoop val (counting_sort_by_digit val arr exp) max (exp * 10)
  else
    arr
termination_by (max.tdiv exp).toNat
decreasing_by
  exact tdiv_mul_ten_toNat_lt max exp (by assumption)

/-- `radix_sort` (radix_sort.c:72-84). -/
def radix_sort {α : Type} [Inhabited α] (val : α → Int) (arr : List α) :
    List α :=
  if arr.length ≤ 1 then arr
  else radixLoop val arr (find_max val arr) 1

theorem toNat_ediv_eq (a b : Int) (ha : 0 ≤ a) (hb : 0 < b) :
    (a / b).toNat = a.toNat / b.toNat := by
  have h1 : ((a.toNat / b.toNat : Nat) : Int) = a / b := by
    rw [Int.natCast_div, Int.toNat_of_nonneg ha, Int.toNat_of_nonneg hb.le]
  rw [← h1, Int.toNat_natCast]

theorem toNat_emod_eq (a b : Int) (ha : 0 ≤ a) (hb : 0 < b) :
    (a % b).toNat = a.toNat % b.toNat := by
  have h1 : ((a.toNat % b.toNat : Nat) : Int) = a % b := by
    rw [Int.natCast_mod, Int.toNat_of_nonneg ha, Int.toNat_of_nonneg hb.le]
  rw [← h1, Int.toNat_natCast]

theorem ten_pow_cast (k : Nat) : ((10 : Int) ^ k) = (((10 ^ k : Nat)) : Int) := by
  push_cast
  rfl

theorem digit_toNat (v e : Int) (k : Nat) (hv : 0 ≤ v) (he : e = 10 ^ k) :
    ((v.tdiv e).tmod 10).toNat = v.toNat / 10 ^ k % 10 := by
  have he0 : (0 : Int) < e := by
    rw [he]
    positivity
  have hq : 0 ≤ v / e := Int.ediv_nonneg hv he0.le
  rw [Int.tdiv_eq_ediv hv he0.le, Int.tmod_eq_emod hq (by norm_num),
    toNat_emod_eq _ _ hq (by norm_num), toNat_ediv_eq _ _ hv he0]
  congr 2
  rw [he, ten_pow_cast, Int.toNat_natCast]

theorem mod_ten_step (a b k : Nat)
    (h : a / 10 ^ k % 10 < b / 10 ^ k % 10 ∨
      (a / 10 ^ k % 10 = b / 10 ^ k % 10 ∧ a % 10 ^ k ≤ b % 10 ^ k)) :
    a % 10 ^ (k + 1) ≤ b % 10 ^ (k + 1) := by
  have hpow : 10 ^ (k + 1) = 10 ^ k * 10 := pow_succ 10 k
  have ha := Nat.mod_mul (a := 10 ^ k) (b := 10) (x := a)
  have hb := Nat.mod_mul (a := 10 ^ k) (b := 10) (x := b)
  have hE : 0 < 10 ^ k := Nat.pos_pow_of_pos k (by norm_num)
  have h1 : a % 10 ^ k < 10 ^ k := Nat.mod_lt _ hE
  have h2 : b % 10 ^ k < 10 ^ k := Nat.mod_lt _ hE
  rw [hpow, ha, hb]
  rcases h with h | ⟨heq, hle⟩
  · have h3 : a % 10 ^ k + 10 ^ k * (a / 10 ^ k % 10) <
        10 ^ k * (a / 10 ^ k % 10 + 1) := by
      rw [Nat.mul_succ]
      omega
    have h4 : 10 ^ k * (a / 10 ^ k % 10 + 1) ≤ 10 ^ k * (b / 10 ^ k % 10) :=
      Nat.mul_le_mul_left _ (by omega)
    omega
  · rw [heq]
    omega

theorem digit_lt_ten (a exp : Int) : ((a.tdiv exp).tmod 10).toNat < 10 := by
  by_cases h : 0 ≤ (a.tdiv exp).tmod 10
  · rw [Int.toNat_lt h]
    exact Int.tmod_lt_of_pos _ (by norm_num)
  · rw [Int.toNat_of_nonpos (by omega)]
    norm_num

theorem radixLoop_sorted {α : Type} [Inhabited α] (val : α → Int) :
    ∀ (arr : List α) (max exp : Int), ∀ k : Nat, exp = 10 ^ k →
    (∀ x ∈ arr, 0 ≤ val x ∧ val x ≤ max) →
    arr.Pairwise (fun x y => (val x).toNat % 10 ^ k ≤ (val y).toNat % 10 ^ k) →
    (radixLoop val arr max exp).Perm arr ∧
    (radixLoop val arr max exp).Pairwise (fun x y => val x ≤ val y) := by
  intro arr max exp
  induction arr, max, exp using radixLoop.induct val with
  | case1 arr max exp h ih =>
    intro k hk hval hpw
    rw [radixLoop, if_pos h]
    have hkeys : ∀ x ∈ arr,
        (fun x => (((val x).tdiv exp).tmod 10).toNat) x < 10 :=
      fun x _ => digit_lt_ten (val x) exp
    have hperm : (counting_sort_by_digit val arr exp).Perm arr :=
      countPass_perm _ 10 arr (by norm_num) hkeys
    have hpw2 := countPass_pairwise
      (fun x => (((val x).tdiv exp).tmod 10).toNat) 10 arr (by norm_num) hkeys
      (fun x y => (val x).toNat % 10 ^ k ≤ (val y).toNat % 10 ^ k) hpw
    have hpw3 : (counting_sort_by_digit val arr exp).Pairwise
        (fun x y => (val x).toNat % 10 ^ (k + 1) ≤ (val y).toNat % 10 ^ (k + 1)) := by
      refine List.Pairwise.imp_of_mem ?_ hpw2
      intro a b ha hb hr
      have ha0 := (hval a (hperm.mem_iff.mp ha)).1
      have hb0 := (hval b (hperm.mem_iff.mp hb)).1
      replace hr : (((val a).tdiv exp).tmod 10).toNat < (((val b).tdiv exp).tmod 10).toNat ∨
          ((((val a).tdiv exp).tmod 10).toNat = (((val b).tdiv exp).tmod 10).toNat ∧
            (val a).toNat % 10 ^ k ≤ (val b).toNat % 10 ^ k) := hr
      rw [digit_toNat (val a) exp k ha0 hk, digit_toNat (val b) exp k hb0 hk] at hr
      exact mod_ten_step _ _ k hr
    have hval2 : ∀ x ∈ counting_sort_by_digit val arr exp,
        0 ≤ val x ∧ val x ≤ max :=
      fun x hx => hval x (hperm.mem_iff.mp hx)
    obtain ⟨r1, r2⟩ := ih (k + 1) (by rw [hk]; ring) hval2 hpw3
    exact ⟨r1.trans hperm, r2⟩
  | case2 arr max exp h =>
    intro k hk hval hpw
    rw [radixLoop, if_neg h]
    refine ⟨.refl _, List.Pairwise.imp_of_mem ?_ hpw⟩
    intro a b ha hb hr
    have ha0 := (hval a ha).1
    have hb0 := (hval b hb).1
    have he0 : (0 : Int) < exp := by
      rw [hk]
      positivity
    have hmax : max < exp := by
      by_contra hc
      have h2 := Int.ediv_le_ediv he0 (not_lt.mp hc)
      rw [Int.ediv_self (ne_of_gt he0)] at h2
      rw [Int.tdiv_eq_ediv (le_trans ha0 (hval a ha).2) he0.le] at h
      omega
    have hva : (val a).toNat < 10 ^ k := by
      have h3 : val a < (((10 ^ k : Nat)) : Int) := by
        rw [← ten_pow_cast, ← hk]
        exact lt_of_le_of_lt (hval a ha).2 hmax
      omega
    have hvb : (val b).toNat < 10 ^ k := by
      have h3 : val b < (((10 ^ k : Nat)) : Int) := by
        rw [← ten_pow_cast, ← hk]
        exact lt_of_le_of_lt (hval b hb).2 hmax
      omega
    rw [Nat.mod_eq_of_lt hva, Nat.mod_eq_of_lt hvb] at hr
    omega

theorem short_pairwise {α : Type} (R : α → α → Prop) (l : List α)
    (h : l.length ≤ 1) : l.Pairwise R := by
  match l, h with
  | [], _ => exact .nil
  | [x], _ => exact .cons (by simp) .nil

theorem pairwise_true {α : Type} (l : List α) :
    l.Pairwise (fun _ _ => True) := by
  induction l with
  | nil => exact .nil
  | cons a t ih => exact .cons (fun _ _ => trivial) ih

theorem radix_sort_correct {α : Type} [Inhabited α] (val : α → Int)
    (arr : List α) (hval : ∀ x ∈ arr, 0 ≤ val x) :
    (radix_sort val arr).Perm arr ∧
    (radix_sort val arr).Pairwise (fun x y => val x ≤ val y) := by
  rw [radix_sort]
  by_cases h : arr.length ≤ 1
  · rw [if_pos h]
    exact ⟨.refl _, short_pairwise _ arr h⟩
  · rw [if_neg h]
    refine radixLoop_sorted val arr (find_max val arr) 1 0 (by norm_num)
      (fun x hx => ⟨hval x hx, find_max_ge val arr x hx⟩) ?_
    refine List.Pairwise.imp ?_ (pairwise_true arr)
    intro a b _
    simp [Nat.mod_one]

theorem radixLoop_stable :
    ∀ (arr : List (Int × Nat)) (max exp : Int),
    arr.Pairwise (fun x y => x.1 = y.1 → x.2 < y.2) →
    (radixLoop (fun p : Int × Nat => p.1) arr max exp).Pairwise
      (fun x y => x.1 = y.1 → x.2 < y.2) := by
  intro arr max exp
  induction arr, max, exp using radixLoop.induct (fun p : Int × Nat => p.1) with
  | case1 arr max exp h ih =>
    intro hst
    rw [radixLoop, if_pos h]
    apply ih
    rw [counting_sort_by_digit]
    have hpw := countPass_pairwise (fun x => ((x.1.tdiv exp).tmod 10).toNat) 10
      arr (by norm_num) (fun x _ => digit_lt_ten x.1 exp) _ hst
    refine List.Pairwise.imp ?_ hpw
    intro a b hr hab
    replace hr : ((a.1.tdiv exp).tmod 10).toNat < ((b.1.tdiv exp).tmod 10).toNat ∨
        (((a.1.tdiv exp).tmod 10).toNat = ((b.1.tdiv exp).tmod 10).toNat ∧
          (a.1 = b.1 → a.2 < b.2)) := hr
    rcases hr with hlt | ⟨_, hq⟩
    · rw [hab] at hlt
      exact absurd hlt (lt_irrefl _)
    · exact hq hab
  | case2 arr max exp h =>
    intro hst
    rw [radixLoop, if_neg h]
    exact hst

theorem radix_sort_stable (l : List Int) :
    (radix_sort (fun p : Int × Nat => p.1) (tagged l)).Pairwise
      (fun x y => x.1 = y.1 → x.2 < y.2) := by
  rw [radix_sort]
  by_cases h : (tagged l).length ≤ 1
  · rw [if_pos h]
    exact tagged_stable_pairwise l
  · rw [if_neg h]
    exact radixLoop_stable (tagged l) _ 1 (tagged_stable_pairwise l)

theorem counting_sort_by_digit_perm {α : Type} [Inhabited α] (val : α → Int)
    (arr : List α) (exp : Int) :
    (counting_sort_by_digit val arr exp).Perm arr := by
  rw [counting_sort_by_digit]
  exact countPass_perm _ 10 arr (by norm_num) (fun x _ => digit_lt_ten (val x) exp)

theorem counting_sort_by_digit_sorted {α : Type} [Inhabited α] (val : α → Int)
    (arr : List α) (exp : Int) :
    (counting_sort_by_digit val arr exp).Pairwise
      (fun x y => (((val x).tdiv exp).tmod 10).toNat ≤
        (((val y).tdiv exp).tmod 10).toNat) := by
  rw [counting_sort_by_digit]
  have hpw := countPass_pairwise (fun x => (((val x).tdiv exp).tmod 10).toNat) 10
    arr (by norm_num) (fun x _ => digit_lt_ten (val x) exp) _ (pairwise_true arr)
  refine List.Pairwise.imp ?_ hpw
  intro a b hr
  rcases hr with hlt | ⟨heq, _⟩
  · exact le_of_lt hlt
  · exact le_of_eq heq

theorem counting_sort_by_digit_stable (arr : List (Int × Nat)) (exp : Int)
    (hst : arr.Pairwise (fun x y => x.2 < y.2)) :
    (counting_sort_by_digit (fun p => p.1) arr exp).Pairwise
      (fun x y => ((x.1.tdiv exp).tmod 10).toNat < ((y.1.tdiv exp).tmod 10).toNat ∨
        (((x.1.tdiv exp).tmod 10).toNat = ((y.1.tdiv exp).tmod 10).toNat ∧
          x.2 < y.2)) := by
  rw [counting_sort_by_digit]
  exact countPass_pairwise (fun x => ((x.1.tdiv exp).tmod 10).toNat) 10
    arr (by norm_num) (fun x _ => digit_lt_ten x.1 exp) _ hst

theorem counting_sort_correct (arr : List Int) (h : ∀ x ∈ arr, 0 ≤ x) :
    (counting_sort arr).Perm arr ∧
    (counting_sort arr).Pairwise (fun x y => x ≤ y) := by
  rw [counting_sort]
  by_cases hl : arr.length ≤ 1
  · rw [if_pos hl]
    exact ⟨.refl _, short_pairwise _ arr hl⟩
  · rw [if_neg hl]
    have hkeys : ∀ x ∈ arr,
        (fun v : Int => v.toNat) x < (find_max (fun v => v) arr + 1).toNat := by
      intro x hx
      have h1 : x ≤ find_max (fun v => v) arr := find_max_ge _ arr x hx
      have h0 := h x hx
      show x.toNat < (find_max (fun v => v) arr + 1).toNat
      omega
    have hR : 1 ≤ (find_max (fun v => v) arr + 1).toNat := by
      obtain ⟨y, hy⟩ : ∃ y, y ∈ arr := by
        match arr with
        | [] => simp at hl
        | a :: t => exact ⟨a, List.mem_cons_self a t⟩
      have h1 : y ≤ find_max (fun v => v) arr := find_max_ge _ arr y hy
      have h0 := h y hy
      omega
    have hperm := countPass_perm (fun v : Int => v.toNat) _ arr hR hkeys
    refine ⟨hperm, ?_⟩
    have hpw := countPass_pairwise (fun v : Int => v.toNat) _ arr hR hkeys _
      (pairwise_true arr)
    refine List.Pairwise.imp_of_mem ?_ hpw
    intro a b ha hb hr
    have ha0 := h a (hperm.mem_iff.mp ha)
    have hb0 := h b (hperm.mem_iff.mp hb)
    replace hr : a.toNat < b.toNat ∨ (a.toNat = b.toNat ∧ True) := hr
    rcases hr with hlt | ⟨heq, _⟩
    · omega
    · omega

/-!
## Allocation-failure behaviour

The C functions allocate with `malloc`/`calloc`. Each allocating call is
modelled with an explicit allocation oracle: `mergesort`'s `merge`
(mergesort.c:27-32) and the counting passes (radix_sort.c:40-43,
counting_sort.c:42-46, 59-64) print to `stderr` and `return` on failure,
leaving their segment untouched and reporting nothing to the caller;
`quicksort_functional` (quicksort.c:74-77, 95-102, 137) returns `NULL`,
modelled as `none`.
-/

/-- `merge` (mergesort.c:19-74) with its two `malloc`s modelled by `ok`:
on failure it returns with the array unchanged (mergesort.c:27-32). -/
def mergeA {α : Type} (key : α → Int) (ok : Bool) (arr : List α)
    (left mid right : Nat) : List α :=
  if ok then merge key arr left mid right else arr

/-- `mergesort_recursive` (mergesort.c:79-90) with an allocation oracle
`alloc left right` for the `merge` call on `[left, right]`. -/
def mergesort_recursiveA {α : Type} (key : α → Int) (alloc : Nat → Nat → Bool)
    (arr : List α) (left right : Nat) : List α :=
  if left < right then
    mergeA key (alloc left right)
      (mergesort_recursiveA key alloc
        (mergesort_recursiveA key alloc arr left (left + (right - left) / 2))
        (left + (right - left) / 2 + 1) right)
      left (left + (right - left) / 2) right
  else
    arr
termination_by right - left
decreasing_by
  · omega
  · omega

/-- `mergesort` (mergesort.c:95-99) with the allocation oracle. -/
def mergesortA {α : Type} (key : α → Int) (alloc : Nat → Nat → Bool)
    (arr : List α) : List α :=
  if 1 < arr.length then mergesort_recursiveA key alloc arr 0 (arr.length - 1)
  else arr

/-- `counting_sort_by_digit` (radix_sort.c:36-67) with its output `malloc`
modelled by `ok`: on failure it returns with the array unchanged
(radix_sort.c:40-43). -/
def counting_sort_by_digitA {α : Type} [Inhabited α] (val : α → Int)
    (ok : Bool) (arr : List α) (exp : Int) : List α :=
  if ok then counting_sort_by_digit val arr exp else arr

/-- `counting_sort` (counting_sort.c:33-77) with its `calloc`/`malloc`
modelled by `ok`: on failure it returns with the array unchanged
(counting_sort.c:42-46, 59-64). -/
def counting_sortA (ok : Bool) (arr : List Int) : List Int :=
  if arr.length ≤ 1 then arr
  else if ok then counting_sort arr else arr

/-- The digit-pass loop of `radix_sort` (radix_sort.c:81-83) with an
allocation oracle per pass: a failed pass leaves the array unchanged and
the loop continues with the next exponent. -/
def radixLoopA {α : Type} [Inhabited α] (val : α → Int) (alloc : Int → Bool)
    (arr : List α) (max exp : Int) : List α :=
  if 0 < max.tdiv exp then
    radixLoopA val alloc (counting_sort_by_digitA val (alloc exp) arr exp)
      max (exp * 10)
  else
    arr
termination_by (max.tdiv exp).toNat
decreasing_by
  exact tdiv_mul_ten_toNat_lt max exp (by assumption)

/-- `radix_sort` (radix_sort.c:72-84) with the allocation oracle. -/
def radix_sortA {α : Type} [Inhabited α] (val : α → Int) (alloc : Int → Bool)
    (arr : List α) : List α :=
  if arr.length ≤ 1 then arr
  else radixLoopA val alloc arr (find_max val arr) 1

/-- `quicksort_functional` (quicksort.c:72-132) with every `malloc`
modelled by one oracle `ok` (`NULL` results become `none`): the base-case
copy (quicksort.c:74-75), the partition buffers (quicksort.c:91-102) and
`merge_arrays`' result buffer (quicksort.c:136-137). -/
def quicksort_functionalA {α : Type} [Inhabited α] (key : α → Int) (ok : Bool)
    (arr : List α) : Option (List α) :=
  if arr.length ≤ 1 then
    if ok then some arr else none
  else
    let pivot := arr.getD (arr.length / 2) default
    if ok then
      match quicksort_functionalA key ok
          (arr.filter (fun x => decide (key x < key pivot))),
        quicksort_functionalA key ok
          (arr.filter (fun x => decide (key pivot < key x))) with
      | some sl, some sg =>
        some (merge_arrays sl (arr.filter (fun x => decide (key x = key pivot))) sg)
      | _, _ => none
    else none
termination_by arr.length
decreasing_by
  · refine lt_of_lt_of_le ?_ (le_refl arr.length)
    refine List.length_filter_lt_length_iff_exists.mpr ?_
    refine ⟨arr.getD (arr.length / 2) default, getD_mem arr _ (by omega), ?_⟩
    simp
  · refine List.length_filter_lt_length_iff_exists.mpr ?_
    refine ⟨arr.getD (arr.length / 2) default, getD_mem arr _ (by omega), ?_⟩
    simp

theorem merge_perm {α : Type} (key : α → Int) (arr : List α)
    (left mid right : Nat) (h1 : left ≤ mid + 1) (h2 : mid ≤ right) :
    (merge key arr left mid right).Perm arr := by
  rw [merge]
  have hd1 : arr.drop (mid + 1) = (arr.drop left).drop (mid + 1 - left) := by
    rw [List.drop_drop]
    congr 1
    omega
  have hd2 : arr.drop (right + 1) = (arr.drop (mid + 1)).drop (right - mid) := by
    rw [List.drop_drop]
    congr 1
    omega
  have e1 : (arr.drop (mid + 1)).take (right - mid) ++ arr.drop (right + 1) =
      arr.drop (mid + 1) := by
    rw [hd2, List.take_append_drop]
  have e2 : (arr.drop left).take (mid + 1 - left) ++ arr.drop (mid + 1) =
      arr.drop left := by
    rw [hd1, List.take_append_drop]
  have hfinal : arr.take left ++ ((arr.drop left).take (mid + 1 - left) ++
      (arr.drop (mid + 1)).take (right - mid)) ++ arr.drop (right + 1) = arr := by
    rw [List.append_assoc, List.append_assoc, e1, e2, List.take_append_drop]
  have hp : ((arr.take left ++
      mergeLists key ((arr.drop left).take (mid + 1 - left))
        ((arr.drop (mid + 1)).take (right - mid))) ++ arr.drop (right + 1)).Perm
      ((arr.take left ++ ((arr.drop left).take (mid + 1 - left) ++
        (arr.drop (mid + 1)).take (right - mid))) ++ arr.drop (right + 1)) :=
    ((List.Perm.refl _).append (mergeLists_perm key _ _)).append (List.Perm.refl _)
  refine hp.trans ?_
  rw [hfinal]

theorem mergesort_recursiveA_ok {α : Type} (key : α → Int) :
    ∀ (arr : List α) (left right : Nat),
    mergesort_recursiveA key (fun _ _ => true) arr left right =
      mergesort_recursive key arr left right := by
  intro arr left right
  induction arr, left, right using
      mergesort_recursiveA.induct key (fun _ _ => true) with
  | case1 arr left right h ih1 ih2 =>
    rw [mergesort_recursiveA, if_pos h,
      mergesort_recursive_unfold key arr left right h, ih2, ih1]
    rw [mergeA]
    simp
  | case2 arr left right h =>
    rw [mergesort_recursiveA, if_neg h, mergesort_recursive, if_neg h]

theorem mergesortA_ok {α : Type} (key : α → Int) (arr : List α) :
    mergesortA key (fun _ _ => true) arr = mergesort key arr := by
  rw [mergesortA, mergesort]
  by_cases h : 1 < arr.length
  · rw [if_pos h, if_pos h, mergesort_recursiveA_ok]
  · rw [if_neg h, if_neg h]

theorem mergesort_recursiveA_perm {α : Type} (key : α → Int)
    (alloc : Nat → Nat → Bool) :
    ∀ (arr : List α) (left right : Nat),
    (mergesort_recursiveA key alloc arr left right).Perm arr := by
  intro arr left right
  induction arr, left, right using mergesort_recursiveA.induct key alloc with
  | case1 arr left right h ih1 ih2 =>
    rw [mergesort_recursiveA, if_pos h]
    have hrec : (mergesort_recursiveA key alloc
        (mergesort_recursiveA key alloc arr left (left + (right - left) / 2))
        (left + (right - left) / 2 + 1) right).Perm arr := ih2.trans ih1
    rw [mergeA]
    by_cases hb : alloc left right = true
    · rw [if_pos hb]
      exact (merge_perm key _ left _ right (by omega) (by omega)).trans hrec
    · rw [if_neg hb]
      exact hrec
  | case2 arr left right h =>
    rw [mergesort_recursiveA, if_neg h]

theorem mergesortA_perm {α : Type} (key : α → Int) (alloc : Nat → Nat → Bool)
    (arr : List α) : (mergesortA key alloc arr).Perm arr := by
  rw [mergesortA]
  by_cases h : 1 < arr.length
  · rw [if_pos h]
    exact mergesort_recursiveA_perm key alloc arr 0 (arr.length - 1)
  · rw [if_neg h]

theorem counting_sort_by_digitA_perm {α : Type} [Inhabited α] (val : α → Int)
    (ok : Bool) (arr : List α) (exp : Int) :
    (counting_sort_by_digitA val ok arr exp).Perm arr := by
  rw [counting_sort_by_digitA]
  by_cases hb : ok = true
  · rw [if_pos hb]
    exact counting_sort_by_digit_perm val arr exp
  · rw [if_neg hb]

theorem radixLoopA_perm {α : Type} [Inhabited α] (val : α → Int)
    (alloc : Int → Bool) :
    ∀ (arr : List α) (max exp : Int),
    (radixLoopA val alloc arr max exp).Perm arr := by
  intro arr max exp
  induction arr, max, exp using radixLoopA.induct val alloc with
  | case1 arr max exp h ih =>
    rw [radixLoopA, if_pos h]
    exact ih.trans (counting_sort_by_digitA_perm val _ arr exp)
  | case2 arr max exp h =>
    rw [radixLoopA, if_neg h]

theorem radix_sortA_perm {α : Type} [Inhabited α] (val : α → Int)
    (alloc : Int → Bool) (arr : List α) :
    (radix_sortA val alloc arr).Perm arr := by
  rw [radix_sortA]
  by_cases h : arr.length ≤ 1
  · rw [if_pos h]
  · rw [if_neg h]
    exact radixLoopA_perm val alloc arr _ 1

theorem counting_sortA_perm (ok : Bool) (arr : List Int)
    (h : ∀ x ∈ arr, 0 ≤ x) : (counting_sortA ok arr).Perm arr := by
  rw [counting_sortA]
  by_cases hl : arr.length ≤ 1
  · rw [if_pos hl]
  · rw [if_neg hl]
    by_cases hb : ok = true
    · rw [if_pos hb]
      exact (counting_sort_correct arr h).1
    · rw [if_neg hb]

theorem quicksort_functionalA_fail {α : Type} [Inhabited α] (key : α → Int)
    (arr : List α) : quicksort_functionalA key false arr = none := by
  rw [quicksort_functionalA]
  by_cases h : arr.length ≤ 1
  · rw [if_pos h]
    simp
  · rw [if_neg h]
    simp

theorem quicksort_functionalA_ok {α : Type} [Inhabited α] (key : α → Int) :
    ∀ (n : Nat) (arr : List α), arr.length ≤ n →
    quicksort_functionalA key true arr = some (quicksort_functional key arr) := by
  intro n
  induction n with
  | zero =>
    intro arr h
    have h1 : arr.length ≤ 1 := by omega
    rw [quicksort_functionalA, if_pos h1, quicksort_functional, if_pos h1]
    simp
  | succ n ih =>
    intro arr h
    by_cases hl : arr.length ≤ 1
    · rw [quicksort_functionalA, if_pos hl, quicksort_functional, if_pos hl]
      simp
    · obtain ⟨hlt, hgt⟩ := qf_filters_shorter key arr hl
      rw [quicksort_functionalA, if_neg hl,
        quicksort_functional_unfold key arr hl]
      simp only [if_true]
      rw [ih _ (by omega), ih _ (by omega)]

theorem pairwise_of_getE (l : List Int)
    (h : ∀ a b : Nat, a ≤ b → b < l.length → getE l a ≤ getE l b) :
    l.Pairwise (fun x y => x ≤ y) := by
  rw [List.pairwise_iff_getElem]
  intro i j hi hj hij
  have hb := h i j (by omega) hj
  rwa [getE_eq_getElem l i (by omega), getE_eq_getElem l j hj] at hb

theorem quicksort_inplace_sorted (arr : List Int) :
    (quicksort_inplace arr).Pairwise (fun x y => x ≤ y) := by
  rw [quicksort_inplace]
  by_cases h : 1 < arr.length
  · rw [if_pos h]
    obtain ⟨hlen, _, _, hs⟩ := quicksort_range_correct arr.length arr 0
      (arr.length - 1) (by omega) (by omega)
    refine pairwise_of_getE _ ?_
    intro a b hab hb
    exact hs a b (by omega) hab (by omega)
  · rw [if_neg h]
    exact short_pairwise _ arr (by omega)

theorem quicksort_inplace_perm (arr : List Int) :
    (quicksort_inplace arr).Perm arr := by
  rw [quicksort_inplace]
  by_cases h : 1 < arr.length
  · rw [if_pos h]
    exact (quicksort_range_correct arr.length arr 0 (arr.length - 1)
      (by omega) (by omega)).2.1
  · rw [if_neg h]

theorem quicksort_three_way_sorted (arr : List Int) :
    (quicksort_three_way arr).Pairwise (fun x y => x ≤ y) := by
  rw [quicksort_three_way]
  by_cases h : arr.length ≤ 1
  · rw [if_pos h]
    exact short_pairwise _ arr h
  · rw [if_neg h]
    obtain ⟨hlen, _, _, hs⟩ := three_way_sort_correct arr.length arr 0
      ((arr.length : Int) - 1) (by omega) (by omega) (by omega)
    refine pairwise_of_getE _ ?_
    intro a b hab hb
    refine hs a b (by omega) hab ?_
    omega

theorem quicksort_three_way_perm (arr : List Int) :
    (quicksort_three_way arr).Perm arr := by
  rw [quicksort_three_way]
  by_cases h : arr.length ≤ 1
  · rw [if_pos h]
  · rw [if_neg h]
    exact (three_way_sort_correct arr.length arr 0 ((arr.length : Int) - 1)
      (by omega) (by omega) (by omega)).2.1

theorem heap_sort_sorted (arr : List Int) :
    (heap_sort arr).Pairwise (fun x y => x ≤ y) := by
  obtain ⟨hlen, _, hs⟩ := heap_sort_spec arr
  refine pairwise_of_getE _ ?_
  intro a b hab hb
  exact hs a b hab (by omega)

theorem radixLoop_perm {α : Type} [Inhabited α] (val : α → Int) :
    ∀ (arr : List α) (max exp : Int), (radixLoop val arr max exp).Perm arr := by
  intro arr max exp
  induction arr, max, exp using radixLoop.induct val with
  | case1 arr max exp h ih =>
    rw [radixLoop, if_pos h]
    exact ih.trans (counting_sort_by_digit_perm val arr exp)
  | case2 arr max exp h =>
    rw [radixLoop, if_neg h]

theorem radix_sort_perm {α : Type} [Inhabited α] (val : α → Int)
    (arr : List α) : (radix_sort val arr).Perm arr := by
  rw [radix_sort]
  by_cases h : arr.length ≤ 1
  · rw [if_pos h]
  · rw [if_neg h]
    exact radixLoop_perm val arr _ 1

theorem dutchStep_progress (arr : List Int) (pivot : Int) (lt i gt : Int) :
    ((dutchStep arr pivot lt i gt).2.2.1 = i + 1 ∧
      (dutchStep arr pivot lt i gt).2.2.2 = gt) ∨
    ((dutchStep arr pivot lt i gt).2.2.1 = i ∧
      (dutchStep arr pivot lt i gt).2.2.2 = gt - 1) := by
  rw [dutchStep]
  by_cases c1 : getE arr i.toNat < pivot
  · rw [if_pos c1]
    exact Or.inl ⟨rfl, rfl⟩
  · rw [if_neg c1]
    by_cases c2 : pivot < getE arr i.toNat
    · rw [if_pos c2]
      exact Or.inr ⟨rfl, rfl⟩
    · rw [if_neg c2]
      exact Or.inl ⟨rfl, rfl⟩

theorem dutchStep_measure (arr : List Int) (pivot : Int) (lt i gt : Int)
    (h : i ≤ gt) :
    ((dutchStep arr pivot lt i gt).2.2.2 + 1 -
      (dutchStep arr pivot lt i gt).2.2.1).toNat < (gt + 1 - i).toNat := by
  rcases dutchStep_progress arr pivot lt i gt with ⟨h1, h2⟩ | ⟨h1, h2⟩ <;>
    rw [h1, h2] <;> omega

theorem radix_passes_finite (max : Int) (hm : 0 ≤ max) :
    ∃ k : Nat, max.tdiv ((10 : Int) ^ k) ≤ 0 := by
  refine ⟨max.toNat + 1, ?_⟩
  have hpow : (0 : Int) < (10 : Int) ^ (max.toNat + 1) := by positivity
  rw [Int.tdiv_eq_ediv hm hpow.le]
  have hlt : max < (10 : Int) ^ (max.toNat + 1) := by
    have h1 : max.toNat < 10 ^ (max.toNat + 1) := by
      calc max.toNat < max.toNat + 1 := Nat.lt_succ_self _
        _ < 10 ^ (max.toNat + 1) := Nat.lt_pow_self (by norm_num) _
    rw [ten_pow_cast]
    omega
  rw [Int.ediv_eq_zero_of_lt hm hlt]

/-!
## The claims
-/

/-- C1: every sort operation of the suite — `quicksort_inplace`,
`quicksort_functional`, `quicksort_three_way`, `mergesort`, `heap_sort`,
`radix_sort`, `counting_sort` — produces a non-decreasing output
(`output[i] <= output[i+1]` for every valid `i`), with the inputs of
`radix_sort` and `counting_sort` restricted to non-negative values. -/
theorem claim_C1_sortedness (arr : List Int) :
    (quicksort_inplace arr).Pairwise (fun x y => x ≤ y) ∧
    (quicksort_functional (fun v : Int => v) arr).Pairwise (fun x y => x ≤ y) ∧
    (quicksort_three_way arr).Pairwise (fun x y => x ≤ y) ∧
    (mergesort (fun v : Int => v) arr).Pairwise (fun x y => x ≤ y) ∧
    (heap_sort arr).Pairwise (fun x y => x ≤ y) ∧
    ((∀ x ∈ arr, 0 ≤ x) →
      (radix_sort (fun v : Int => v) arr).Pairwise (fun x y => x ≤ y)) ∧
    ((∀ x ∈ arr, 0 ≤ x) →
      (counting_sort arr).Pairwise (fun x y => x ≤ y)) := by
  refine ⟨quicksort_inplace_sorted arr,
    quicksort_functional_keySorted (fun v : Int => v) arr.length arr le_rfl,
    quicksort_three_way_sorted arr,
    mergesort_keySorted (fun v : Int => v) arr,
    heap_sort_sorted arr,
    fun h => (radix_sort_correct (fun v : Int => v) arr h).2,
    fun h => (counting_sort_correct arr h).2⟩

theorem claim_C1_sortedness_witness :
    (∀ x ∈ ([3, 0, 2] : List Int), 0 ≤ x) ∧
    (radix_sort (fun v : Int => v) [3, 0, 2]).Pairwise (fun x y => x ≤ y) ∧
    (counting_sort [3, 0, 2]).Pairwise (fun x y => x ≤ y) :=
  ⟨by decide, (claim_C1_sortedness [3, 0, 2]).2.2.2.2.2.1 (by decide),
    (claim_C1_sortedness [3, 0, 2]).2.2.2.2.2.2 (by decide)⟩

/-- C2: the output of every sort operation of the suite is a permutation
of the input (same length, same multiset of values), with the inputs of
`counting_sort` restricted to non-negative values. -/
theorem claim_C2_permutation (arr : List Int) :
    (quicksort_inplace arr).Perm arr ∧
    (quicksort_functional (fun v : Int => v) arr).Perm arr ∧
    (quicksort_three_way arr).Perm arr ∧
    (mergesort (fun v : Int => v) arr).Perm arr ∧
    (heap_sort arr).Perm arr ∧
    (radix_sort (fun v : Int => v) arr).Perm arr ∧
    ((∀ x ∈ arr, 0 ≤ x) → (counting_sort arr).Perm arr) :=
  ⟨quicksort_inplace_perm arr,
    quicksort_functional_perm (fun v : Int => v) arr.length arr le_rfl,
    quicksort_three_way_perm arr,
    mergesort_perm (fun v : Int => v) arr,
    (heap_sort_spec arr).2.1,
    radix_sort_perm (fun v : Int => v) arr,
    fun h => (counting_sort_correct arr h).1⟩

theorem claim_C2_permutation_witness :
    (∀ x ∈ ([2, 0, 1] : List Int), 0 ≤ x) ∧
    (counting_sort [2, 0, 1]).Perm [2, 0, 1] :=
  ⟨by decide, (claim_C2_permutation [2, 0, 1]).2.2.2.2.2.2 (by decide)⟩

/-- C3: `mergesort` is stable — tagging every element with its input
index, the output is sorted by value with ties in increasing index order
(`lexSorted`), which is exactly the merge tie-break that prefers the
left-subarray head on equality; the tagged output is a permutation of the
tagged input. -/
theorem claim_C3_mergesort_stable (l : List Int) :
    lexSorted (mergesort (fun p : Int × Nat => p.1) (tagged l)) ∧
    (mergesort (fun p : Int × Nat => p.1) (tagged l)).Perm (tagged l) :=
  ⟨mergesort_stable l, mergesort_perm (fun p : Int × Nat => p.1) (tagged l)⟩

/-- C4: each digit pass of `radix_sort` (`counting_sort_by_digit`) is a
permutation sorted by the digit `(value / exp) % 10` and is stable (on
index-tagged input, equal digits keep increasing index order), and the
composition of the passes (`radix_sort`) sorts any array of non-negative
values correctly and stably. -/
theorem claim_C4_radix_passes (l : List Int) (exp : Int)
    (hval : ∀ x ∈ l, 0 ≤ x) :
    (counting_sort_by_digit (fun v : Int => v) l exp).Perm l ∧
    (counting_sort_by_digit (fun v : Int => v) l exp).Pairwise
      (fun x y => ((x.tdiv exp).tmod 10).toNat ≤ ((y.tdiv exp).tmod 10).toNat) ∧
    (counting_sort_by_digit (fun p : Int × Nat => p.1) (tagged l) exp).Pairwise
      (fun x y => ((x.1.tdiv exp).tmod 10).toNat < ((y.1.tdiv exp).tmod 10).toNat ∨
        (((x.1.tdiv exp).tmod 10).toNat = ((y.1.tdiv exp).tmod 10).toNat ∧
          x.2 < y.2)) ∧
    (radix_sort (fun v : Int => v) l).Perm l ∧
    (radix_sort (fun v : Int => v) l).Pairwise (fun x y => x ≤ y) ∧
    (radix_sort (fun p : Int × Nat => p.1) (tagged l)).Pairwise
      (fun x y => x.1 = y.1 → x.2 < y.2) :=
  ⟨counting_sort_by_digit_perm (fun v : Int => v) l exp,
    counting_sort_by_digit_sorted (fun v : Int => v) l exp,
    counting_sort_by_digit_stable (tagged l) exp (tagFrom_tags_increasing 0 l),
    (radix_sort_correct (fun v : Int => v) l hval).1,
    (radix_sort_correct (fun v : Int => v) l hval).2,
    radix_sort_stable l⟩

theorem claim_C4_radix_passes_witness :
    (∀ x ∈ ([21, 3, 12] : List Int), 0 ≤ x) ∧
    (radix_sort (fun v : Int => v) [21, 3, 12]).Pairwise (fun x y => x ≤ y) :=
  ⟨by decide, (claim_C4_radix_passes [21, 3, 12] 1 (by decide)).2.2.2.2.1⟩

/-- C5: Lomuto partition postcondition — for `low ≤ high < arr.length`,
`partition arr low high` returns an array of the same length that is a
permutation of `arr`, leaves everything outside `[low, high]` unchanged,
and returns an index `p` with `low ≤ p ≤ high` such that the element at
`p` is the original pivot `arr[high]`, every element of `[low, p)` is
`≤` it, and every element of `(p, high]` is `≥` it. -/
theorem claim_C5_partition (arr : List Int) (low high : Nat)
    (hlh : low ≤ high) (hh : high < arr.length) :
    (partition arr low high).1.length = arr.length ∧
    (partition arr low high).1.Perm arr ∧
    low ≤ (partition arr low high).2 ∧ (partition arr low high).2 ≤ high ∧
    (∀ k, k < low ∨ high < k →
      getE (partition arr low high).1 k = getE arr k) ∧
    getE (partition arr low high).1 (partition arr low high).2 =
      getE arr high ∧
    (∀ k, low ≤ k → k < (partition arr low high).2 →
      getE (partition arr low high).1 k ≤
        getE (partition arr low high).1 (partition arr low high).2) ∧
    (∀ k, (partition arr low high).2 < k → k ≤ high →
      getE (partition arr low high).1 (partition arr low high).2 ≤
        getE (partition arr low high).1 k) := by
  obtain ⟨s1, s2, s3, s4, s5, s6, s7, s8⟩ :=
    partition_spec arr low high (partition arr low high).1
      (partition arr low high).2 rfl hlh hh
  refine ⟨s1, s2, s3, s4, s5, s6, ?_, ?_⟩
  · intro k hk1 hk2
    rw [s6]
    exact s7 k hk1 hk2
  · intro k hk1 hk2
    rw [s6]
    exact s8 k hk1 hk2

theorem claim_C5_partition_witness :
    (0 : Nat) ≤ 2 ∧ 2 < ([3, 1, 2] : List Int).length ∧
    (partition [3, 1, 2] 0 2).1.length = ([3, 1, 2] : List Int).length :=
  ⟨by decide, by decide,
    (claim_C5_partition [3, 1, 2] 0 2 (by decide) (by decide)).1⟩

/-- C6: the termination measures of the suite — one three-way-partition
loop step with `i ≤ gt` either advances `i` by one (keeping `gt`) or
decreases `gt` by one (keeping `i`), so the measure `gt + 1 - i` strictly
drops; `partition` returns an index within `[low, high]`, so both
recursive quicksort ranges are strictly smaller; and the digit-pass loop
of `radix_sort` strictly shrinks `max.tdiv exp` each pass and reaches
`max.tdiv (10 ^ k) ≤ 0` for some finite `k`. -/
theorem claim_C6_termination (arr : List Int) (pivot : Int) (lt i gt : Int)
    (low high : Nat) (max : Int) (hig : i ≤ gt) (hlh : low ≤ high)
    (hm : 0 ≤ max) :
    (((dutchStep arr pivot lt i gt).2.2.1 = i + 1 ∧
        (dutchStep arr pivot lt i gt).2.2.2 = gt) ∨
      ((dutchStep arr pivot lt i gt).2.2.1 = i ∧
        (dutchStep arr pivot lt i gt).2.2.2 = gt - 1)) ∧
    ((dutchStep arr pivot lt i gt).2.2.2 + 1 -
      (dutchStep arr pivot lt i gt).2.2.1).toNat < (gt + 1 - i).toNat ∧
    low ≤ (partition arr low high).2 ∧ (partition arr low high).2 ≤ high ∧
    (∃ k : Nat, max.tdiv ((10 : Int) ^ k) ≤ 0) ∧
    (∀ exp : Int, 0 < max.tdiv exp →
      (max.tdiv (exp * 10)).toNat < (max.tdiv exp).toNat) :=
  ⟨dutchStep_progress arr pivot lt i gt,
    dutchStep_measure arr pivot lt i gt hig,
    (partition_snd_bounds arr low high hlh).1,
    (partition_snd_bounds arr low high hlh).2,
    radix_passes_finite max hm,
    fun exp h => tdiv_mul_ten_toNat_lt max exp h⟩

theorem claim_C6_termination_witness :
    (1 : Int) ≤ 2 ∧ (0 : Nat) ≤ 2 ∧ (0 : Int) ≤ 5 ∧
    (∃ k : Nat, (5 : Int).tdiv ((10 : Int) ^ k) ≤ 0) :=
  ⟨by decide, by decide, by decide,
    (claim_C6_termination [2, 1, 3] 2 0 1 2 0 2 5 (by decide) (by decide)
      (by decide)).2.2.2.2.1⟩

/-- C7: `quicksort_functional` never modifies its input — in this
embedding it is a pure function of the input list, every access to `arr`
a read — and, whenever its allocations succeed (oracle `true`), it
returns a fresh result sequence of exactly `size` elements: the
oracle-instrumented `quicksort_functionalA` then returns `some` of the
pure result, whose length equals the input length. -/
theorem claim_C7_functional_frame (arr : List Int) :
    quicksort_functionalA (fun v : Int => v) true arr =
      some (quicksort_functional (fun v : Int => v) arr) ∧
    (quicksort_functional (fun v : Int => v) arr).length = arr.length :=
  ⟨quicksort_functionalA_ok (fun v : Int => v) arr.length arr le_rfl,
    quicksort_functional_length (fun v : Int => v) arr⟩

/-- C8: for every algorithm of the suite, sorting `[]` yields `[]` and
sorting `[x]` yields `[x]`, with no special-cased failure: the in-place
variants return the buffer unchanged and `quicksort_functional` returns a
copy equal to its input. -/
theorem claim_C8_empty_singleton :
    quicksort_inplace [] = [] ∧ (∀ x : Int, quicksort_inplace [x] = [x]) ∧
    quicksort_functional (fun v : Int => v) [] = [] ∧
    (∀ x : Int, quicksort_functional (fun v : Int => v) [x] = [x]) ∧
    quicksort_three_way [] = [] ∧ (∀ x : Int, quicksort_three_way [x] = [x]) ∧
    mergesort (fun v : Int => v) [] = [] ∧
    (∀ x : Int, mergesort (fun v : Int => v) [x] = [x]) ∧
    heap_sort [] = [] ∧ (∀ x : Int, heap_sort [x] = [x]) ∧
    radix_sort (fun v : Int => v) [] = [] ∧
    (∀ x : Int, radix_sort (fun v : Int => v) [x] = [x]) ∧
    counting_sort [] = [] ∧ (∀ x : Int, counting_sort [x] = [x]) := by
  refine ⟨rfl, fun x => rfl, ?_, fun x => ?_, rfl, fun x => rfl, rfl,
    fun x => rfl, rfl, fun x => rfl, rfl, fun x => rfl, rfl, fun x => rfl⟩
  · rw [quicksort_functional]
    simp
  · rw [quicksort_functional]
    simp

/-- C9 counterexample: with every allocation failing, `mergesort` on
`[2, 1]` returns normally with the buffer unchanged and unsorted — the
`merge` allocation failure (mergesort.c:27-32) only prints to `stderr`
and returns, so no failure reaches the caller of the `void` sort. -/
theorem claim_C9_counterexample :
    mergesortA (fun v : Int => v) (fun _ _ => false) [2, 1] = [2, 1] ∧
    ¬ ([2, 1] : List Int).Pairwise (fun x y => x ≤ y) := by
  constructor
  · simp [mergesortA, mergesort_recursiveA, mergeA]
  · decide

/-- C9 (amended): on allocation failure, only `quicksort_functional`
propagates a failed sort (`NULL`, here `none`); the in-place allocating
sorts (`mergesort`, `counting_sort_by_digit`, `radix_sort`,
`counting_sort`) swallow the failure — the failing call returns with its
segment unchanged, so the caller-visible array is never truncated (it
stays a permutation of the input under any allocation oracle), but an
unsorted result can be returned with no error indication. -/
theorem claim_C9_alloc_behaviour (arr : List Int) :
    quicksort_functionalA (fun v : Int => v) false arr = none ∧
    (∀ alloc : Nat → Nat → Bool,
      (mergesortA (fun v : Int => v) alloc arr).Perm arr) ∧
    (∀ (ok : Bool) (exp : Int),
      (counting_sort_by_digitA (fun v : Int => v) ok arr exp).Perm arr) ∧
    (∀ alloc : Int → Bool,
      (radix_sortA (fun v : Int => v) alloc arr).Perm arr) ∧
    ((∀ x ∈ arr, 0 ≤ x) → ∀ ok : Bool, (counting_sortA ok arr).Perm arr) :=
  ⟨quicksort_functionalA_fail (fun v : Int => v) arr,
    fun alloc => mergesortA_perm (fun v : Int => v) alloc arr,
    fun ok exp => counting_sort_by_digitA_perm (fun v : Int => v) ok arr exp,
    fun alloc => radix_sortA_perm (fun v : Int => v) alloc arr,
    fun h ok => counting_sortA_perm ok arr h⟩

theorem claim_C9_alloc_behaviour_witness :
    (∀ x ∈ ([1, 0] : List Int), 0 ≤ x) ∧
    (counting_sortA false [1, 0]).Perm [1, 0] :=
  ⟨by decide, (claim_C9_alloc_behaviour [1, 0]).2.2.2.2 (by decide) false⟩

/-- C10: `quicksort_functional` is in fact stable — on index-tagged
input compared by value only, equal values keep their increasing index
order in the output, because each partition is filled by one
left-to-right scan and `merge_arrays` concatenates `less ++ equal ++
greater` in order. -/
theorem claim_C10_functional_stable (l : List Int) :
    (quicksort_functional (fun p : Int × Nat => p.1) (tagged l)).Pairwise
      (fun x y => x.1 = y.1 → x.2 < y.2) :=
  quicksort_functional_stable_pairwise (tagged l).length (tagged l) le_rfl
    (tagged_stable_pairwise l)
